import Mathlib

/-
  Verification development for the Qwen-Article legal question-answering
  repository.  The Python sources are shallowly embedded as Lean functions
  over `List Char` (Python strings are sequences of code points, so a
  `List Char` models a `str` faithfully; `\d` in the regular expressions
  involved is modelled as the ASCII digits, the only digits these case
  numbers use).  Stateful loops are embedded as explicit state-passing
  functions; external collaborators (the sandbox, the LLM, the registry
  lookup service) are modelled as oracle function parameters.
-/

namespace QwenArticle

/-! ## Generic helpers over lists of characters -/

/-- Decidable substring test: Python `pat in s`. -/
def containsSub (pat s : List Char) : Bool :=
  (List.range (s.length + 1)).any (fun i => pat.isPrefixOf (s.drop i))

/-- Index of the first occurrence of a character, Python `s.index(c)`
    (meaningful only when `c ∈ s`). -/
def firstIdx (c : Char) : List Char → Nat
  | [] => 0
  | a :: rest => if a = c then 0 else firstIdx c rest + 1

/-- Index of the last occurrence of a character, Python `s.rindex(c)`
    (meaningful only when `c ∈ s`). -/
def lastIdx (c : Char) (s : List Char) : Nat :=
  s.length - 1 - firstIdx c s.reverse

/-- Python `s.replace(old, new, 1)`: replace the leftmost occurrence of
    `old` by `new` (for the empty pattern Python inserts at the front). -/
def replaceFirst (old new : List Char) : List Char → List Char
  | [] => if old.isPrefixOf ([] : List Char) then new else []
  | c :: t =>
      if old.isPrefixOf (c :: t) then new ++ (c :: t).drop old.length
      else c :: replaceFirst old new t

/-! ## Embedding of the execution loop (src/app/executor.py, Executor.exec_task)

The sandbox is an external collaborator; an attempt stream
`att : Nat → ExecutionAttempt` gives, for each sandbox call the loop makes,
the code that was run together with the result dictionary returned by
`Coder.run_code`.  The loop body of `exec_task` (the `for _ in range(4)`
loop) is embedded as `execTaskLoop`; `raised` records that the
`IndentationError` fast-fail exception was raised, `repairsBuilt` counts how
many times the repair (debug-reflection) request was built in the `else`
branch. -/

/-- One sandbox attempt: the code submitted plus the result dictionary
    of `Coder.run_code` (`success`, `result`, `ename`, `evalue`). -/
structure ExecutionAttempt where
  code : List Char
  success : Bool
  result : List Char
  ename : List Char
  evalue : List Char
  deriving DecidableEq

/-- The fast-fail test of executor.py line 247:
    `run_result['ename'] == 'RunCodeException' and 'IndentationError' in run_result['evalue']`. -/
def isIndentFastFail (a : ExecutionAttempt) : Bool :=
  decide (a.ename = "RunCodeException".toList) && containsSub "IndentationError".toList a.evalue

/-- State threaded through `exec_task`: `best`/`bestCode` mirror
    `Executor._latest_output` and the `SolutionSpace` result/code (the
    executor promotes into the solution space exactly when it updates
    `_latest_output`), `taskResult`/`taskCode` are the `task.result` and
    `task.code` fields, `raised` records the `IndentationError` raise,
    `executed` counts sandbox executions and `repairsBuilt` counts built
    repair requests. -/
structure LoopState where
  raised : Bool
  best : List Char
  bestCode : List Char
  taskResult : Option (List Char)
  taskCode : Option (List Char)
  executed : Nat
  repairsBuilt : Nat
  deriving DecidableEq

/-- The promotion step of executor.py lines 250-254: after an attempt, if
    the produced textual result is strictly longer than `_latest_output`,
    it (and its code) is promoted into the solution space. -/
def promote (a : ExecutionAttempt) (st : LoopState) : LoopState :=
  if st.best.length < a.result.length then
    { st with best := a.result, bestCode := a.code }
  else st

/-- State entering the next loop iteration after a failed attempt: the
    promotion check has run, the repair (debug-reflection) request has been
    built, and one more execution has been counted. -/
def afterFailState (att : Nat → ExecutionAttempt) (done : Nat) (st : LoopState) : LoopState :=
  { promote (att done) st with
      executed := done + 1,
      repairsBuilt := (promote (att done) st).repairsBuilt + 1 }

/-- The `for _ in range(fuel)` loop of `Executor.exec_task`, started after
    the initial synthesis request; `done` is the number of sandbox
    executions already performed. -/
def execTaskLoop (att : Nat → ExecutionAttempt) : Nat → Nat → LoopState → LoopState
  | 0, _, st => st
  | fuel + 1, done, st =>
      if isIndentFastFail (att done) then
        { st with raised := true, executed := done + 1 }
      else
        if (att done).success then
          { promote (att done) st with
              taskResult := some (att done).result,
              taskCode := some (att done).code, executed := done + 1 }
        else
          execTaskLoop att fuel (done + 1) (afterFailState att done st)

/-- `Executor.exec_task` for one task: fresh task fields, loop bound 4,
    `best₀`/`bestCode₀` carry over the `_latest_output` / solution-space
    state from earlier tasks of the same question. -/
def execTask (att : Nat → ExecutionAttempt) (best₀ bestCode₀ : List Char) : LoopState :=
  execTaskLoop att 4 0
    { raised := false, best := best₀, bestCode := bestCode₀,
      taskResult := none, taskCode := none, executed := 0, repairsBuilt := 0 }

/-! ## Lemmas about the execution loop -/

@[simp] theorem promote_raised (a : ExecutionAttempt) (st : LoopState) :
    (promote a st).raised = st.raised := by
  unfold promote; split_ifs <;> rfl

@[simp] theorem promote_taskResult (a : ExecutionAttempt) (st : LoopState) :
    (promote a st).taskResult = st.taskResult := by
  unfold promote; split_ifs <;> rfl

@[simp] theorem promote_taskCode (a : ExecutionAttempt) (st : LoopState) :
    (promote a st).taskCode = st.taskCode := by
  unfold promote; split_ifs <;> rfl

@[simp] theorem promote_executed (a : ExecutionAttempt) (st : LoopState) :
    (promote a st).executed = st.executed := by
  unfold promote; split_ifs <;> rfl

@[simp] theorem promote_repairsBuilt (a : ExecutionAttempt) (st : LoopState) :
    (promote a st).repairsBuilt = st.repairsBuilt := by
  unfold promote; split_ifs <;> rfl

theorem promote_best (a : ExecutionAttempt) (st : LoopState) :
    (promote a st).best =
      if st.best.length < a.result.length then a.result else st.best := by
  unfold promote; split_ifs <;> rfl

@[simp] theorem afterFailState_raised (att : Nat → ExecutionAttempt) (done : Nat)
    (st : LoopState) : (afterFailState att done st).raised = st.raised := by
  simp [afterFailState]

@[simp] theorem afterFailState_taskResult (att : Nat → ExecutionAttempt) (done : Nat)
    (st : LoopState) : (afterFailState att done st).taskResult = st.taskResult := by
  simp [afterFailState]

@[simp] theorem afterFailState_taskCode (att : Nat → ExecutionAttempt) (done : Nat)
    (st : LoopState) : (afterFailState att done st).taskCode = st.taskCode := by
  simp [afterFailState]

@[simp] theorem afterFailState_executed (att : Nat → ExecutionAttempt) (done : Nat)
    (st : LoopState) : (afterFailState att done st).executed = done + 1 := by
  simp [afterFailState]

@[simp] theorem afterFailState_repairsBuilt (att : Nat → ExecutionAttempt) (done : Nat)
    (st : LoopState) : (afterFailState att done st).repairsBuilt = st.repairsBuilt + 1 := by
  simp [afterFailState]

theorem afterFailState_best (att : Nat → ExecutionAttempt) (done : Nat)
    (st : LoopState) : (afterFailState att done st).best =
      if st.best.length < (att done).result.length then (att done).result
      else st.best := by
  simp [afterFailState, promote_best]

theorem execTaskLoop_executed_le (att : Nat → ExecutionAttempt) :
    ∀ (fuel done : Nat) (st : LoopState), st.executed ≤ done →
      (execTaskLoop att fuel done st).executed ≤ done + fuel := by
  intro fuel
  induction fuel with
  | zero => intro done st h; simpa [execTaskLoop] using h
  | succ fuel ih =>
      intro done st h
      simp only [execTaskLoop]
      by_cases hf : isIndentFastFail (att done)
      · simp only [hf, if_true]
        simp
      · by_cases hs : (att done).success
        · simp only [hf, hs, if_true, if_false, Bool.false_eq_true]
          simp
        · simp only [hf, hs, if_false, Bool.false_eq_true]
          refine le_trans (ih (done + 1) _ ?_) (by omega)
          exact Nat.le_refl _

theorem execTaskLoop_congr (att att2 : Nat → ExecutionAttempt) :
    ∀ (fuel done : Nat) (st : LoopState),
      (∀ i, done ≤ i → i < done + fuel → att i = att2 i) →
      execTaskLoop att fuel done st = execTaskLoop att2 fuel done st := by
  intro fuel
  induction fuel with
  | zero => intro done st _; rfl
  | succ fuel ih =>
      intro done st h
      have h0 : att done = att2 done := h done le_rfl (by omega)
      simp only [execTaskLoop, h0]
      by_cases hf : isIndentFastFail (att2 done)
      · simp [hf]
      · simp only [hf, if_false, Bool.false_eq_true]
        by_cases hs : (att2 done).success
        · simp [hs]
        · simp only [hs, if_false, Bool.false_eq_true]
          have hstate : afterFailState att done st = afterFailState att2 done st := by
            simp [afterFailState, h0]
          rw [hstate]
          exact ih (done + 1) _ (fun i hi hi2 => h i (by omega) (by omega))

theorem execTask_all_fail (att : Nat → ExecutionAttempt) (b c : List Char)
    (h : ∀ i, i < 4 → (att i).success = false ∧ isIndentFastFail (att i) = false) :
    (execTask att b c).taskResult = none ∧ (execTask att b c).executed = 4 := by
  have h0 := h 0 (by omega)
  have h1 := h 1 (by omega)
  have h2 := h 2 (by omega)
  have h3 := h 3 (by omega)
  simp only [execTask, execTaskLoop, h0.1, h0.2, h1.1, h1.2, h2.1, h2.2, h3.1, h3.2,
    if_false, Bool.false_eq_true]
  constructor <;> simp

/-- C1: the loop in `Executor.exec_task` performs at most 4 sandbox
    execution attempts; only the first 4 entries of the attempt stream are
    ever consulted, and if all 4 attempts fail (without the fast-fail
    exception) the task result is never set. -/
theorem exec_task_at_most_four_attempts
    (att att2 : Nat → ExecutionAttempt) (b c : List Char)
    (hagree : ∀ i, i < 4 → att i = att2 i) :
    (execTask att b c).executed ≤ 4 ∧
    execTask att b c = execTask att2 b c ∧
    ((∀ i, i < 4 → (att i).success = false ∧ isIndentFastFail (att i) = false) →
      (execTask att b c).taskResult = none ∧ (execTask att b c).executed = 4) := by
  refine ⟨?_, ?_, ?_⟩
  · simpa using execTaskLoop_executed_le att 4 0 _ (by simp)
  · exact execTaskLoop_congr att att2 4 0 _ (fun i _ hi => hagree i (by omega))
  · exact fun hfail => execTask_all_fail att b c hfail

/-- An ordinary failing attempt (no fast-fail, no success). -/
def plainFailAttempt : ExecutionAttempt :=
  { code := "x = foo()".toList, success := false, result := "partial".toList,
    ename := "NameError".toList, evalue := "name foo is not defined".toList }

/-- Witness for C1 at a concrete attempt stream of plain failures. -/
theorem exec_task_at_most_four_attempts_witness :
    (execTask (fun _ => plainFailAttempt) [] []).executed ≤ 4 ∧
    execTask (fun _ => plainFailAttempt) [] [] = execTask (fun _ => plainFailAttempt) [] [] ∧
    ((∀ i, i < 4 → ((fun _ => plainFailAttempt) i).success = false ∧
        isIndentFastFail ((fun _ => plainFailAttempt) i) = false) →
      (execTask (fun _ => plainFailAttempt) [] []).taskResult = none ∧
      (execTask (fun _ => plainFailAttempt) [] []).executed = 4) :=
  exec_task_at_most_four_attempts (fun _ => plainFailAttempt) (fun _ => plainFailAttempt)
    [] [] (fun _ _ => rfl)

theorem execTaskLoop_best_mono (att : Nat → ExecutionAttempt) :
    ∀ (fuel done : Nat) (st : LoopState),
      st.best.length ≤ (execTaskLoop att fuel done st).best.length ∧
      ((execTaskLoop att fuel done st).best = st.best ∨
        (st.best.length < (execTaskLoop att fuel done st).best.length ∧
          ∃ i, done ≤ i ∧ i < done + fuel ∧
            (execTaskLoop att fuel done st).best = (att i).result)) := by
  intro fuel
  induction fuel with
  | zero => intro done st; simp [execTaskLoop]
  | succ fuel ih =>
      intro done st
      simp only [execTaskLoop]
      by_cases hf : isIndentFastFail (att done)
      · simp [hf]
      · by_cases hs : (att done).success
        · simp only [hf, hs, if_true, if_false, Bool.false_eq_true]
          by_cases hb : st.best.length < (att done).result.length
          · refine ⟨?_, Or.inr ⟨?_, done, le_rfl, by omega, ?_⟩⟩ <;>
              (simp [promote_best, hb]; all_goals omega)
          · refine ⟨?_, Or.inl ?_⟩ <;> simp [promote_best, hb]
        · simp only [hf, hs, if_false, Bool.false_eq_true]
          obtain ⟨ihle, ihor⟩ := ih (done + 1) (afterFailState att done st)
          by_cases hb : st.best.length < (att done).result.length
          · have hbest : (afterFailState att done st).best = (att done).result := by
              simp [afterFailState_best, hb]
            rw [hbest] at ihle ihor
            refine ⟨by omega, Or.inr ⟨?_, ?_⟩⟩
            · omega
            · rcases ihor with heq | ⟨_, i, hi1, hi2, heq⟩
              · exact ⟨done, le_rfl, by omega, heq⟩
              · exact ⟨i, by omega, by omega, heq⟩
          · have hbest : (afterFailState att done st).best = st.best := by
              simp [afterFailState_best, hb]
            rw [hbest] at ihle ihor
            refine ⟨ihle, ?_⟩
            rcases ihor with heq | ⟨hlt, i, hi1, hi2, heq⟩
            · exact Or.inl heq
            · exact Or.inr ⟨hlt, i, by omega, by omega, heq⟩

/-- C2 (amended): across the attempts of `exec_task`, continuing the
    `_latest_output` / solution-space state of the question, the stored best
    result never shrinks; it is replaced only by the textual output of some
    attempt that was strictly longer than the stored value; and after every
    attempt that does not trigger the `IndentationError` fast-fail (which
    raises before the promotion check), the promotion happens exactly when
    the new output is strictly longer, regardless of success or failure. -/
theorem best_result_monotone (att : Nat → ExecutionAttempt) (b c : List Char) :
    (b.length ≤ (execTask att b c).best.length ∧
      ((execTask att b c).best = b ∨
        (b.length < (execTask att b c).best.length ∧
          ∃ i, i < 4 ∧ (execTask att b c).best = (att i).result))) ∧
    (∀ (d : Nat) (st : LoopState), isIndentFastFail (att d) = false →
      (execTaskLoop att 1 d st).best =
        if st.best.length < (att d).result.length then (att d).result
        else st.best) := by
  constructor
  · obtain ⟨hle, hor⟩ := execTaskLoop_best_mono att 4 0
      { raised := false, best := b, bestCode := c, taskResult := none,
        taskCode := none, executed := 0, repairsBuilt := 0 }
    refine ⟨hle, ?_⟩
    rcases hor with heq | ⟨hlt, i, _, hi, heq⟩
    · exact Or.inl heq
    · exact Or.inr ⟨hlt, i, by omega, heq⟩
  · intro d st hf
    simp only [execTaskLoop, hf, if_false, Bool.false_eq_true]
    by_cases hs : (att d).success
    · simp [hs, promote_best]
    · simp only [hs, if_false, Bool.false_eq_true, execTaskLoop]
      exact afterFailState_best att d st

/-- Witness for the amended C2 at a concrete attempt stream and state. -/
theorem best_result_monotone_witness :
    ((([] : List Char).length ≤ (execTask (fun _ => plainFailAttempt) [] []).best.length ∧
      ((execTask (fun _ => plainFailAttempt) [] []).best = ([] : List Char) ∨
        (([] : List Char).length < (execTask (fun _ => plainFailAttempt) [] []).best.length ∧
          ∃ i, i < 4 ∧ (execTask (fun _ => plainFailAttempt) [] []).best =
            ((fun _ => plainFailAttempt) i).result))) ∧
    (∀ (d : Nat) (st : LoopState),
      isIndentFastFail ((fun (_ : Nat) => plainFailAttempt) d) = false →
      (execTaskLoop (fun _ => plainFailAttempt) 1 d st).best =
        if st.best.length < ((fun (_ : Nat) => plainFailAttempt) d).result.length
        then ((fun (_ : Nat) => plainFailAttempt) d).result
        else st.best)) :=
  best_result_monotone (fun _ => plainFailAttempt) [] []

/-- An attempt hitting the `IndentationError` fast-fail while carrying a
    long textual result. -/
def indentFailAttempt : ExecutionAttempt :=
  { code := "if True:\nprint(1)".toList, success := false,
    result := "0123456789".toList,
    ename := "RunCodeException".toList,
    evalue := "IndentationError: unexpected indent".toList }

/-- Counterexample to C2 as stated: the first attempt fails with the
    `IndentationError` fast-fail and produces a strictly longer textual
    output, yet the stored best result is not replaced, because the loop
    raises before the promotion check. -/
theorem best_result_update_skipped_on_fastfail :
    (execTask (fun _ => indentFailAttempt) [] []).best = [] ∧
    (execTask (fun _ => indentFailAttempt) [] []).raised = true ∧
    0 < indentFailAttempt.result.length := by
  refine ⟨?_, ?_, by decide⟩ <;> decide

/-! ## C4: the fast-fail raise -/

theorem execTaskLoop_fastfail (att : Nat → ExecutionAttempt) :
    ∀ (j fuel done : Nat) (st : LoopState), j < fuel →
      (∀ i, done ≤ i → i < done + j → (att i).success = false ∧
        isIndentFastFail (att i) = false) →
      isIndentFastFail (att (done + j)) = true →
      (execTaskLoop att fuel done st).raised = true ∧
      (execTaskLoop att fuel done st).executed = done + j + 1 ∧
      (execTaskLoop att fuel done st).repairsBuilt = st.repairsBuilt + j ∧
      (execTaskLoop att fuel done st).taskResult = st.taskResult := by
  intro j
  induction j with
  | zero =>
      intro fuel done st hj _ hff
      rcases fuel with _ | fuel
      · omega
      · simp only [Nat.add_zero] at hff
        simp [execTaskLoop, hff]
  | succ j ih =>
      intro fuel done st hj hpre hff
      rcases fuel with _ | fuel
      · omega
      · have h0 := hpre done le_rfl (by omega)
        simp only [execTaskLoop, h0.1, h0.2, if_false, Bool.false_eq_true]
        have := ih fuel (done + 1) (afterFailState att done st)
          (by omega)
          (fun i hi1 hi2 => hpre i (by omega) (by omega))
          (by have : done + 1 + j = done + (j + 1) := by omega
              rw [this]; exact hff)
        refine ⟨this.1, by rw [this.2.1]; omega, ?_, ?_⟩
        · rw [this.2.2.1]; simp; omega
        · rw [this.2.2.2]; simp

/-- C4: whenever an attempt comes back with error name `RunCodeException`
    and `IndentationError` contained in the error value, the loop raises
    immediately: no repair request is built for that attempt, no further
    sandbox execution happens, and the task result stays unset. -/
theorem indentation_error_raises_immediately
    (att : Nat → ExecutionAttempt) (b c : List Char) (j : Nat) (hj : j < 4)
    (hpre : ∀ i, i < j → (att i).success = false ∧
      isIndentFastFail (att i) = false)
    (hff : isIndentFastFail (att j) = true) :
    (execTask att b c).raised = true ∧
    (execTask att b c).executed = j + 1 ∧
    (execTask att b c).repairsBuilt = j ∧
    (execTask att b c).taskResult = none := by
  have := execTaskLoop_fastfail att j 4 0
    { raised := false, best := b, bestCode := c, taskResult := none,
      taskCode := none, executed := 0, repairsBuilt := 0 }
    hj (fun i _ hi => hpre i (by omega)) (by simpa using hff)
  simpa using this

/-- Witness for C4: one ordinary failure, then the fast-fail attempt. -/
theorem indentation_error_raises_immediately_witness :
    (execTask (fun i => if i = 0 then plainFailAttempt else indentFailAttempt) [] []).raised = true ∧
    (execTask (fun i => if i = 0 then plainFailAttempt else indentFailAttempt) [] []).executed = 1 + 1 ∧
    (execTask (fun i => if i = 0 then plainFailAttempt else indentFailAttempt) [] []).repairsBuilt = 1 ∧
    (execTask (fun i => if i = 0 then plainFailAttempt else indentFailAttempt) [] []).taskResult = none :=
  indentation_error_raises_immediately
    (fun i => if i = 0 then plainFailAttempt else indentFailAttempt) [] [] 1
    (by omega)
    (fun i hi => by
      have : i = 0 := by omega
      subst this
      exact ⟨by decide, by decide⟩)
    (by decide)

/-! ## Embedding of src/app/law/utils.py

Case numbers are Chinese legal docket identifiers such as
`(2020)皖05民终1584号`.  `preprocess_case_num` removes noise characters and
normalizes brackets, `correct_case_num` repairs the year field and the
bracket pair, `extract_case_num` parses the canonical shape with the regex
`\((\d+)\)([一-鿥\d]+?)([一-鿥]{1,4})(\d+)号` (the character classes are the
CJK range 4E00-9FA5), and `augment_case_num` generates candidate variants
by collapsing doubled adjacent characters. -/

/-- Python `s.replace(c, '')` for a single character. -/
def rmChar (c : Char) (s : List Char) : List Char :=
  s.filter (fun x => x ≠ c)

/-- Python `s.replace('判决', '')`: remove the two-character judgement word,
    scanning left to right. -/
def removeVerdictWord : List Char → List Char
  | [] => []
  | [c] => [c]
  | c :: d :: rest =>
      if c = '判' ∧ d = '决' then removeVerdictWord rest
      else c :: removeVerdictWord (d :: rest)

/-- Python `re.sub(c+, c, s)` for a single character `c`: collapse each
    maximal run of `c` to a single `c`. -/
def collapseRuns (c : Char) : List Char → List Char
  | a :: b :: rest =>
      if a = c ∧ b = c then collapseRuns c (b :: rest)
      else a :: collapseRuns c (b :: rest)
  | s => s

/-- Lines 26-34 of utils.py: keep exactly the first opening and the last
    closing parenthesis when both are present, otherwise remove the
    unmatched parentheses. -/
def fixPair (s : List Char) : List Char :=
  if '(' ∈ s ∧ ')' ∈ s then
    s.take (firstIdx '(' s) ++
      '(' :: ((s.drop (firstIdx '(' s + 1)).take (lastIdx ')' s - firstIdx '(' s - 1)) ++
      ')' :: s.drop (lastIdx ')' s + 1)
  else if '(' ∈ s then rmChar '(' s
  else if ')' ∈ s then rmChar ')' s
  else s

/-- The character-removal phase of `preprocess_case_num` (lines 9-20 of
    utils.py), in source order: spaces, both commas, the judgement words,
    the year marker, then every bracket variant other than the ASCII
    parentheses (the source replaces each of them by the empty string). -/
def caseNumRemovals (s : List Char) : List Char :=
  List.foldl (fun acc c => rmChar c acc)
    (removeVerdictWord (List.foldl (fun acc c => rmChar c acc) s [' ', '，', ',']))
    ['判', '年', '[', ']', '【', '】', '（', '）', '\x7b', '\x7d']

/-- utils.py `preprocess_case_num`: strip spaces, commas, judgement words
    and the year marker, delete every bracket variant other than ASCII
    parentheses, collapse runs of parentheses, then keep one pair. -/
def preprocessCaseNum (s : List Char) : List Char :=
  fixPair (collapseRuns ')' (collapseRuns '(' (caseNumRemovals s)))

/-- The anchored match of `^[\(]?(\d+)[\)]?` in `correct_case_num`: the
    captured digit group together with the length of the whole matched
    span. -/
def matchYearSpan (s : List Char) : Option (List Char × Nat) :=
  match s with
  | [] => none
  | c :: rest =>
      if c = '(' then
        let ds := rest.takeWhile Char.isDigit
        if ds = [] then none
        else some (ds, 1 + ds.length +
          (if (rest.drop ds.length).head? = some ')' then 1 else 0))
      else
        let ds := (c :: rest).takeWhile Char.isDigit
        if ds = [] then none
        else some (ds, ds.length +
          (if ((c :: rest).drop ds.length).head? = some ')' then 1 else 0))

/-- Lines 47-54 of utils.py: when the captured leading numeral run has
    length 2 or 4, `re.sub` replaces the matched span by the bracketed
    (and for 2 digits, `20`-prefixed) year. -/
def yearStep (s : List Char) : List Char :=
  ((matchYearSpan s).map (fun p =>
    if p.1.length = 2 then '(' :: '2' :: '0' :: (p.1 ++ ')' :: s.drop p.2)
    else if p.1.length = 4 then '(' :: (p.1 ++ ')' :: s.drop p.2)
    else s)).getD s

/-- Lines 56-58 of utils.py: prepend a missing opening bracket. -/
def openParenStep (s : List Char) : List Char :=
  if s.head? = some '(' then s else '(' :: s

/-- Lines 60-62 of utils.py: insert a missing closing bracket after the
    fifth character. -/
def closeParenStep (s : List Char) : List Char :=
  if ')' ∈ s then s else s.take 5 ++ ')' :: s.drop 5

/-- Lines 64-65 of utils.py: strip a trailing 案. -/
def dropAnStep (s : List Char) : List Char :=
  if s.getLast? = some '案' then s.dropLast else s

/-- Lines 67-69 of utils.py: force the trailing 号. -/
def ensureHaoStep (s : List Char) : List Char :=
  if s.getLast? = some '号' then s else s ++ ['号']

/-- utils.py `correct_case_num`: re-bracket the leading numeral run (adding
    a `20` prefix to a two-digit year), repair missing brackets, strip a
    trailing 案, and force the trailing 号. -/
def correctCaseNum (s : List Char) : List Char :=
  ensureHaoStep (dropAnStep (closeParenStep (openParenStep (yearStep s))))

/-- Python single-character `s.replace(src, tgt)`. -/
def mapChar (src tgt : Char) (s : List Char) : List Char :=
  s.map (fun c => if c = src then tgt else c)

/-- utils.py `preprocess_xzgxf_case_num`: strip spaces and turn every
    bracket variant into full-width parentheses. -/
def preprocessXzgxfCaseNum (s : List Char) : List Char :=
  let s := rmChar ' ' s
  let s := mapChar '[' '（' s
  let s := mapChar ']' '）' s
  let s := mapChar '【' '（' s
  let s := mapChar '】' '）' s
  let s := mapChar '(' '（' s
  let s := mapChar ')' '）' s
  s

/-- utils.py `merge_adjacent_chars`: `re.sub((.)\1+, \1, s)`, collapsing
    every maximal run of a repeated character to a single copy. -/
def mergeAdjacentChars : List Char → List Char
  | a :: b :: rest =>
      if a = b then mergeAdjacentChars (b :: rest)
      else a :: mergeAdjacentChars (b :: rest)
  | s => s

/-- Characters in the CJK range `一-龥` used by the case-number
    regexes. -/
def isCJK (c : Char) : Bool :=
  0x4e00 ≤ c.toNat && c.toNat ≤ 0x9fa5

/-- Parsed case number fields of `extract_case_num`. -/
structure CaseNumParts where
  year : List Char
  courtCode : List Char
  caseType : List Char
  number : List Char
  deriving DecidableEq

/-- Matching `(\d+)号` greedily at the start of `rest`: the maximal digit
    run must be nonempty and immediately followed by 号. -/
def matchNumberEnd (rest : List Char) : Option (List Char) :=
  let ds := rest.takeWhile Char.isDigit
  if ds ≠ [] ∧ (rest.drop ds.length).head? = some '号' then some ds else none

/-- Matching `([一-鿥]{1,4})(\d+)号` at the start of `rest` with a greedy
    quantifier: the longest workable case-type length wins. -/
def tryCaseTypeLen (rest : List Char) (m : Nat) : Option (List Char × List Char) :=
  let t := rest.take m
  if t.length = m ∧ t.all isCJK then
    match matchNumberEnd (rest.drop m) with
    | some ds => some (t, ds)
    | none => none
  else none

/-- Greedy `{1,4}` quantifier: prefer 4 characters, backtrack down to 1. -/
def matchCaseType (rest : List Char) : Option (List Char × List Char) :=
  match tryCaseTypeLen rest 4 with
  | some r => some r
  | none =>
      match tryCaseTypeLen rest 3 with
      | some r => some r
      | none =>
          match tryCaseTypeLen rest 2 with
          | some r => some r
          | none => tryCaseTypeLen rest 1

/-- The lazy court-code group `([一-鿥\d]+?)` followed by the case-type and
    number groups: the shortest nonempty court code for which the rest of
    the pattern matches wins, mirroring the backtracking of Python `re`. -/
def matchCourtAux (acc : List Char) : List Char → Option (List Char × List Char × List Char)
  | [] =>
      if acc = [] then none
      else
        match matchCaseType [] with
        | some (t, ds) => some (acc, t, ds)
        | none => none
  | c :: rs =>
      match
        (if acc = [] then none
         else
           match matchCaseType (c :: rs) with
           | some (t, ds) => some (acc, t, ds)
           | none => none) with
      | some r => some r
      | none =>
          if isCJK c || c.isDigit then matchCourtAux (acc ++ [c]) rs
          else none

/-- utils.py `extract_case_num`: anchored match of
    `\((\d+)\)([一-鿥\d]+?)([一-鿥]{1,4})(\d+)号`, returning the component
    fields (trailing text after the match is allowed, as with `re.match`). -/
def extractCaseNum (s : List Char) : Option CaseNumParts :=
  match s with
  | '(' :: rest =>
      let ds := rest.takeWhile Char.isDigit
      if ds = [] then none
      else
        match rest.drop ds.length with
        | ')' :: tail =>
            match matchCourtAux [] tail with
            | some (court, ctype, num) => some ⟨ds, court, ctype, num⟩
            | none => none
        | _ => none
  | _ => none

/-- Deduplication keeping first occurrences.  The source uses
    `list(set(...))`, whose order is unspecified; only membership in the
    returned list is meaningful, and membership is preserved exactly. -/
def dedupFirst (l : List (List Char)) : List (List Char) :=
  l.foldl (fun acc x => if x ∈ acc then acc else acc ++ [x]) []

/-- utils.py `augment_case_num`: canonicalize, parse, build the variant
    sets (original and doubled-character-collapsed, with the year filtered
    to length 4 and the case type to length at most 3) and return the
    deduplicated cartesian product alongside the canonical form. -/
def augmentCaseNum (caseNum : List Char) : List (List Char) :=
  let c := correctCaseNum (preprocessCaseNum caseNum)
  match extractCaseNum c with
  | none => [c]
  | some e =>
      let yearVars := (dedupFirst [mergeAdjacentChars e.year, e.year]).filter
        (fun y => y.length = 4)
      let courtVars := dedupFirst [mergeAdjacentChars e.courtCode, e.courtCode]
      let typeVars := (dedupFirst [mergeAdjacentChars e.caseType, e.caseType]).filter
        (fun t => t.length ≤ 3)
      let combos := yearVars.flatMap (fun y =>
        courtVars.flatMap (fun cc =>
          typeVars.map (fun t =>
            '(' :: (y ++ ')' :: (cc ++ t ++ e.number ++ ['号'])))))
      dedupFirst ([c] ++ combos)

/-! ## C3: the doubled-character example -/

/-- C3: evaluating the augmentation pipeline on `22002200皖05民终1584号`.
    The claimed repaired candidate `(2020)皖05民终1584号` is absent: the
    bracket-repair step of `correct_case_num` inserts the closing bracket
    after the fifth character, splitting the doubled year `22002200` into
    `2200` and `2200` before `merge_adjacent_chars` ever sees it, so the
    candidate set only contains `(2200)2200皖05民终1584号` and
    `(2200)20皖05民终1584号`. -/
theorem augment_case_num_doubled_year :
    augmentCaseNum "22002200皖05民终1584号".toList =
      ["(2200)2200皖05民终1584号".toList, "(2200)20皖05民终1584号".toList] ∧
    "(2020)皖05民终1584号".toList ∉ augmentCaseNum "22002200皖05民终1584号".toList := by
  constructor
  · rfl
  · decide

/-! ## C7: the canonical shape of corrected case numbers -/

/-- The shape asserted by the specification for a canonicalized case
    number: it ends with the terminator 号, contains exactly one bracket
    pair, and that pair wraps the leading numeral run, which is a 4-digit
    year. -/
def canonicalShape (r : List Char) : Bool :=
  (r.getLast? = some '号') &&
  (r.count '(' = 1) && (r.count ')' = 1) &&
  (r.head? = some '(') &&
  ((r.drop 1).takeWhile Char.isDigit).length = 4 &&
  (((r.drop 1).drop ((r.drop 1).takeWhile Char.isDigit).length).head? = some ')')

/-- Counterexample to C7 as stated: the input `123号` has a 3-digit leading
    numeral run; `correct_case_num` leaves it alone, brackets the first
    five characters instead, and appends a second 号, producing
    `(123号)号`, which has neither a 4-digit year nor a bracket pair around
    a numeral run. -/
theorem canonical_shape_violated :
    correctCaseNum (preprocessCaseNum "123号".toList) = "(123号)号".toList ∧
    canonicalShape (correctCaseNum (preprocessCaseNum "123号".toList)) = false := by
  constructor
  · rfl
  · decide

theorem takeWhile_append_eq (p : Char → Bool) (l r : List Char)
    (hl : l.all p = true) (hr : ∀ c, r.head? = some c → p c = false) :
    (l ++ r).takeWhile p = l := by
  induction l with
  | nil =>
      cases r with
      | nil => rfl
      | cons c t =>
          have hc := hr c rfl
          simp [List.takeWhile_cons, hc]
  | cons a l ih =>
      simp only [List.all_cons, Bool.and_eq_true] at hl
      simp [List.takeWhile_cons, hl.1, ih hl.2]

theorem not_mem_of_all_digit (c : Char) (hc : c.isDigit = false)
    (l : List Char) (hl : l.all Char.isDigit = true) : c ∉ l := by
  intro hm
  have := List.all_eq_true.mp hl c hm
  rw [this] at hc
  exact absurd hc (by simp)

theorem ensureHaoStep_getLast (s : List Char) :
    (ensureHaoStep s).getLast? = some '号' := by
  unfold ensureHaoStep
  split_ifs with h
  · exact h
  · exact List.getLast?_concat s

theorem ensureHao_shape (Y tail : List Char) (h1 : '(' ∉ tail) (h2 : ')' ∉ tail) :
    ∃ t2, ensureHaoStep ('(' :: (Y ++ ')' :: tail)) = '(' :: (Y ++ ')' :: t2) ∧
      '(' ∉ t2 ∧ ')' ∉ t2 := by
  unfold ensureHaoStep
  by_cases hh : ('(' :: (Y ++ ')' :: tail)).getLast? = some '号'
  · exact ⟨tail, by rw [if_pos hh], h1, h2⟩
  · refine ⟨tail ++ ['号'], ?_, ?_, ?_⟩
    · rw [if_neg hh]; simp
    · intro h
      rcases List.mem_append.mp h with h | h
      · exact h1 h
      · simp at h
    · intro h
      rcases List.mem_append.mp h with h | h
      · exact h2 h
      · simp at h

theorem dropAn_shape (Y tail : List Char) (h1 : '(' ∉ tail) (h2 : ')' ∉ tail) :
    ∃ t2, dropAnStep ('(' :: (Y ++ ')' :: tail)) = '(' :: (Y ++ ')' :: t2) ∧
      '(' ∉ t2 ∧ ')' ∉ t2 := by
  unfold dropAnStep
  by_cases hh : ('(' :: (Y ++ ')' :: tail)).getLast? = some '案'
  · have htne : tail ≠ [] := by
      intro h
      subst h
      have : ('(' :: (Y ++ [')'])).getLast? = some ')' := by
        rw [show '(' :: (Y ++ [')']) = ('(' :: Y) ++ [')'] from rfl]
        exact List.getLast?_concat _
      rw [this] at hh
      simp at hh
    refine ⟨tail.dropLast, ?_, ?_, ?_⟩
    · rw [if_pos hh]
      rw [show '(' :: (Y ++ ')' :: tail) = (('(' :: Y) ++ [')']) ++ tail by simp]
      rw [List.dropLast_append_of_ne_nil _ htne]
      simp
    · exact fun h => h1 ((List.dropLast_sublist tail).subset h)
    · exact fun h => h2 ((List.dropLast_sublist tail).subset h)
  · exact ⟨tail, by rw [if_neg hh], h1, h2⟩

set_option maxHeartbeats 1600000 in
/-- C7 (amended): every output of the canonicalization pipeline ends with
    the terminator 号.  The full canonical shape (exactly one bracket pair,
    wrapping a 4-digit year obtained from a 2-digit year by a `20` prefix)
    additionally requires the preprocessed input to contain no parentheses
    and to start with a digit run of length exactly 2 or 4: inputs such as
    `123号` (3-digit run) or inputs retaining several bracket pairs violate
    the shape. -/
theorem corrected_case_num_shape :
    (∀ x : List Char, (correctCaseNum (preprocessCaseNum x)).getLast? = some '号') ∧
    (∀ x ds rest, preprocessCaseNum x = ds ++ rest →
      '(' ∉ preprocessCaseNum x → ')' ∉ preprocessCaseNum x →
      ds.all Char.isDigit = true → ds ≠ [] → (ds.length = 2 ∨ ds.length = 4) →
      (∀ c, rest.head? = some c → c.isDigit = false) →
      canonicalShape (correctCaseNum (preprocessCaseNum x)) = true ∧
      ((correctCaseNum (preprocessCaseNum x)).drop 1).takeWhile Char.isDigit =
        (if ds.length = 2 then '2' :: '0' :: ds else ds)) := by
  constructor
  · intro x
    unfold correctCaseNum
    exact ensureHaoStep_getLast _
  · intro x ds rest hsplit hp1 hp2 hds hne hlen hrest
    rw [hsplit] at hp1 hp2 ⊢
    have hrest1 : '(' ∉ rest := fun h => hp1 (List.mem_append_right _ h)
    have hrest2 : ')' ∉ rest := fun h => hp2 (List.mem_append_right _ h)
    have hrpar : ¬ rest.head? = some ')' := by
      intro hh
      cases rest with
      | nil => simp at hh
      | cons c t =>
          rw [List.head?_cons] at hh
          injection hh with hc
          exact hrest2 (by rw [hc]; exact List.mem_cons_self ..)
    have hmys : matchYearSpan (ds ++ rest) = some (ds, ds.length) := by
      cases ds with
      | nil => exact absurd rfl hne
      | cons d ds2 =>
          have hd : d.isDigit = true := by
            simp only [List.all_cons, Bool.and_eq_true] at hds
            exact hds.1
          have hdne : ¬ d = '(' := fun h => absurd (h ▸ hd) (by decide)
          have htw : (d :: (ds2 ++ rest)).takeWhile Char.isDigit = d :: ds2 := by
            simpa using takeWhile_append_eq Char.isDigit (d :: ds2) rest hds hrest
          have hdrop : (d :: (ds2 ++ rest)).drop (d :: ds2).length = rest :=
            List.drop_left (d :: ds2) rest
          simp only [List.cons_append, matchYearSpan, if_neg hdne, htw, hdrop]
          simp [hrpar]
    set Y : List Char := if ds.length = 2 then '2' :: '0' :: ds else ds with hY
    have hYd : Y.all Char.isDigit = true := by
      by_cases h2 : ds.length = 2
      · simp only [hY, if_pos h2, List.all_cons, Bool.and_eq_true]
        exact ⟨by decide, by decide, hds⟩
      · simp only [hY, if_neg h2]
        exact hds
    have hYlen : Y.length = 4 := by
      rcases hlen with h2 | h4
      · simp [hY, h2]
      · have h2 : ¬ ds.length = 2 := by omega
        simp [hY, h2, h4]
    have hyear : yearStep (ds ++ rest) = '(' :: (Y ++ ')' :: rest) := by
      unfold yearStep
      rw [hmys]
      simp only [Option.map_some', Option.getD_some]
      rcases hlen with h2 | h4
      · rw [if_pos h2, List.drop_left]
        simp [hY, h2]
      · have h2 : ¬ ds.length = 2 := by omega
        rw [if_neg h2, if_pos h4, List.drop_left]
        simp [hY, h2]
    have hopen : openParenStep ('(' :: (Y ++ ')' :: rest)) = '(' :: (Y ++ ')' :: rest) := by
      simp [openParenStep]
    have hclosemem : ')' ∈ '(' :: (Y ++ ')' :: rest) := by simp
    have hclose : closeParenStep ('(' :: (Y ++ ')' :: rest)) = '(' :: (Y ++ ')' :: rest) := by
      unfold closeParenStep
      rw [if_pos hclosemem]
    obtain ⟨t1, ht1, h11, h12⟩ := dropAn_shape Y rest hrest1 hrest2
    obtain ⟨t2, ht2, h21, h22⟩ := ensureHao_shape Y t1 h11 h12
    have htail : correctCaseNum (ds ++ rest) = '(' :: (Y ++ ')' :: t2) := by
      unfold correctCaseNum
      rw [hyear, hopen, hclose, ht1, ht2]
    have hlast : ('(' :: (Y ++ ')' :: t2)).getLast? = some '号' := by
      rw [← htail]
      unfold correctCaseNum
      exact ensureHaoStep_getLast _
    rw [htail]
    have htw2 : (Y ++ ')' :: t2).takeWhile Char.isDigit = Y := by
      refine takeWhile_append_eq Char.isDigit Y (')' :: t2) hYd ?_
      intro c hc
      rw [List.head?_cons] at hc
      injection hc with hc
      rw [← hc]
      decide
    have hYnp1 : '(' ∉ Y := not_mem_of_all_digit '(' (by decide) Y hYd
    have hYnp2 : ')' ∉ Y := not_mem_of_all_digit ')' (by decide) Y hYd
    constructor
    · unfold canonicalShape
      simp only [Bool.and_eq_true, decide_eq_true_eq]
      refine ⟨⟨⟨⟨⟨?_, ?_⟩, ?_⟩, ?_⟩, ?_⟩, ?_⟩
      · exact hlast
      · simp [List.count_cons, List.count_append,
          List.count_eq_zero.mpr hYnp1, List.count_eq_zero.mpr h21]
      · simp [List.count_cons, List.count_append,
          List.count_eq_zero.mpr hYnp2, List.count_eq_zero.mpr h22]
      · simp
      · simp only [List.drop_one, List.tail_cons, htw2]
        exact hYlen
      · simp only [List.drop_one, List.tail_cons, htw2, List.drop_left]
        rfl
    · simp only [List.drop_one, List.tail_cons, htw2]

/-- Witness for C7 at the concrete two-digit-year input `12京01民终5号`. -/
theorem corrected_case_num_shape_witness :
    (correctCaseNum (preprocessCaseNum "12京01民终5号".toList)).getLast? = some '号' ∧
    canonicalShape (correctCaseNum (preprocessCaseNum "12京01民终5号".toList)) = true ∧
    ((correctCaseNum (preprocessCaseNum "12京01民终5号".toList)).drop 1).takeWhile Char.isDigit =
      (if ("12".toList : List Char).length = 2
       then '2' :: '0' :: "12".toList else "12".toList) := by
  refine ⟨corrected_case_num_shape.1 _, ?_, ?_⟩
  · exact (corrected_case_num_shape.2 "12京01民终5号".toList "12".toList
      "京01民终5号".toList rfl (by decide) (by decide) (by decide) (by decide)
      (by decide)
      (fun c hc => by
        have h2 : '京' = c := Option.some.inj hc
        rw [← h2]
        decide)).1
  · exact (corrected_case_num_shape.2 "12京01民终5号".toList "12".toList
      "京01民终5号".toList rfl (by decide) (by decide) (by decide) (by decide)
      (by decide)
      (fun c hc => by
        have h2 : '京' = c := Option.some.inj hc
        rw [← h2]
        decide)).2

/-! ## C8: idempotence of the case-number preprocessors

The proof shows that a second pass of `preprocess_case_num` is the
identity on any first-pass output: the removed characters are gone and
never reintroduced, the parenthesis runs stay collapsed, and the
single-pair normalization is stable. -/

theorem firstIdx_lt_length (c : Char) :
    ∀ s : List Char, c ∈ s → firstIdx c s < s.length := by
  intro s
  induction s with
  | nil => intro h; simp at h
  | cons a t ih =>
      intro h
      by_cases hac : a = c
      · simp [firstIdx, hac]
      · have hct : c ∈ t := by
          rcases List.mem_cons.mp h with h1 | h1
          · exact absurd h1.symm hac
          · exact h1
        have := ih hct
        simp only [firstIdx, if_neg hac, List.length_cons]
        omega

theorem getD_firstIdx (c x : Char) :
    ∀ s : List Char, c ∈ s → s.getD (firstIdx c s) x = c := by
  intro s
  induction s with
  | nil => intro h; simp at h
  | cons a t ih =>
      intro h
      by_cases hac : a = c
      · simp [firstIdx, hac]
      · have hct : c ∈ t := by
          rcases List.mem_cons.mp h with h1 | h1
          · exact absurd h1.symm hac
          · exact h1
        simp only [firstIdx, if_neg hac, List.getD_cons_succ]
        exact ih hct

theorem not_mem_take_firstIdx (c : Char) :
    ∀ s : List Char, c ∉ s.take (firstIdx c s) := by
  intro s
  induction s with
  | nil => simp
  | cons a t ih =>
      by_cases hac : a = c
      · simp [firstIdx, hac]
      · simp only [firstIdx, if_neg hac, List.take_succ_cons, List.mem_cons]
        push_neg
        exact ⟨fun h => hac h.symm, ih⟩

theorem lastIdx_lt_length (c : Char) (s : List Char) (h : c ∈ s) :
    lastIdx c s < s.length := by
  have h0 : 0 < s.length := List.length_pos.mpr (List.ne_nil_of_mem h)
  unfold lastIdx
  omega

theorem firstIdx_reverse_lt (c : Char) (s : List Char) (h : c ∈ s) :
    firstIdx c s.reverse < s.length := by
  have := firstIdx_lt_length c s.reverse (List.mem_reverse.mpr h)
  simpa using this

theorem getD_lastIdx (c x : Char) (s : List Char) (h : c ∈ s) :
    s.getD (lastIdx c s) x = c := by
  have hrev : c ∈ s.reverse := List.mem_reverse.mpr h
  have hk : firstIdx c s.reverse < s.length := firstIdx_reverse_lt c s h
  have h1 := getD_firstIdx c x s.reverse hrev
  rw [List.getD_eq_getElem _ x (by simpa using hk)] at h1
  rw [List.getElem_reverse] at h1
  unfold lastIdx
  rw [List.getD_eq_getElem _ x (by omega)]
  simpa using h1

theorem not_mem_drop_lastIdx (c : Char) (s : List Char) (h : c ∈ s) :
    c ∉ s.drop (lastIdx c s + 1) := by
  intro hmem
  obtain ⟨k, hk, hval⟩ := List.mem_iff_getElem.mp hmem
  rw [List.getElem_drop] at hval
  have hklen : lastIdx c s + 1 + k < s.length := by
    have := List.length_drop (lastIdx c s + 1) s
    omega
  have hfi : firstIdx c s.reverse < s.length := firstIdx_reverse_lt c s h
  have hrevlen : s.length - 1 - (lastIdx c s + 1 + k) < s.reverse.length := by
    simp
    omega
  have hrevval : s.reverse[s.length - 1 - (lastIdx c s + 1 + k)] = c := by
    rw [List.getElem_reverse]
    have harith : s.length - 1 - (s.length - 1 - (lastIdx c s + 1 + k)) =
        lastIdx c s + 1 + k := by
      omega
    simp only [harith]
    exact hval
  have hlt : s.length - 1 - (lastIdx c s + 1 + k) < firstIdx c s.reverse := by
    unfold lastIdx at hklen ⊢
    omega
  apply not_mem_take_firstIdx c s.reverse
  refine List.mem_iff_getElem.mpr ⟨s.length - 1 - (lastIdx c s + 1 + k), ?_, ?_⟩
  · simpa using by omega
  · rw [List.getElem_take]
    exact hrevval

theorem drop_eq_getD_cons (s : List Char) (i : Nat) (h : i < s.length) (x : Char) :
    s.drop i = s.getD i x :: s.drop (i + 1) := by
  rw [List.getD_eq_getElem _ x h]
  exact List.drop_eq_getElem_cons h

theorem collapseRuns_sublist (c : Char) :
    ∀ s : List Char, (collapseRuns c s).Sublist s := by
  intro s
  induction s with
  | nil => simp [collapseRuns]
  | cons a t ih =>
      cases t with
      | nil => simp [collapseRuns]
      | cons b r =>
          by_cases hab : a = c ∧ b = c
          · simp only [collapseRuns, if_pos hab]
            exact ih.cons a
          · simp only [collapseRuns, if_neg hab]
            exact ih.cons₂ a

theorem collapseRuns_head? (c : Char) :
    ∀ (b : Char) (rest : List Char), (collapseRuns c (b :: rest)).head? = some b := by
  intro b rest
  induction rest generalizing b with
  | nil => simp [collapseRuns]
  | cons b2 r ih =>
      by_cases hab : b = c ∧ b2 = c
      · simp only [collapseRuns, if_pos hab]
        rw [ih b2]
        rw [hab.1, hab.2]
      · simp only [collapseRuns, if_neg hab, List.head?_cons]

theorem chain'_collapseRuns_preserved (R : Char → Char → Prop) (c : Char) :
    ∀ s : List Char, List.Chain' R s → List.Chain' R (collapseRuns c s) := by
  intro s
  induction s with
  | nil => intro h; simp [collapseRuns]
  | cons a t ih =>
      intro h
      cases t with
      | nil => simp [collapseRuns]
      | cons b r =>
          rw [List.chain'_cons] at h
          by_cases hab : a = c ∧ b = c
          · simp only [collapseRuns, if_pos hab]
            exact ih h.2
          · simp only [collapseRuns, if_neg hab]
            rw [List.chain'_cons']
            refine ⟨?_, ih h.2⟩
            intro y hy
            rw [collapseRuns_head? c b r] at hy
            simp at hy
            subst hy
            exact h.1

theorem chain'_collapseRuns_self (c : Char) :
    ∀ s : List Char, List.Chain' (fun a b => ¬(a = c ∧ b = c)) (collapseRuns c s) := by
  intro s
  induction s with
  | nil => simp [collapseRuns]
  | cons a t ih =>
      cases t with
      | nil => simp [collapseRuns]
      | cons b r =>
          by_cases hab : a = c ∧ b = c
          · simp only [collapseRuns, if_pos hab]
            exact ih
          · simp only [collapseRuns, if_neg hab]
            rw [List.chain'_cons']
            refine ⟨?_, ih⟩
            intro y hy
            rw [collapseRuns_head? c b r] at hy
            simp at hy
            subst hy
            exact hab

theorem collapseRuns_eq_self (c : Char) :
    ∀ s : List Char, List.Chain' (fun a b => ¬(a = c ∧ b = c)) s →
      collapseRuns c s = s := by
  intro s
  induction s with
  | nil => intro _; rfl
  | cons a t ih =>
      intro h
      cases t with
      | nil => rfl
      | cons b r =>
          rw [List.chain'_cons] at h
          have hab : ¬(a = c ∧ b = c) := h.1
          simp only [collapseRuns, if_neg hab]
          rw [ih h.2]

theorem removeVerdictWord_sublist :
    ∀ s : List Char, (removeVerdictWord s).Sublist s := by
  intro s
  induction s using removeVerdictWord.induct with
  | case1 => simp [removeVerdictWord]
  | case2 c => simp [removeVerdictWord]
  | case3 c d rest h ih =>
      simp only [removeVerdictWord, if_pos h]
      exact (ih.cons _).cons _
  | case4 c d rest h ih =>
      simp only [removeVerdictWord, if_neg h]
      exact ih.cons₂ _

theorem removeVerdictWord_eq_self :
    ∀ s : List Char, '判' ∉ s → removeVerdictWord s = s := by
  intro s
  induction s using removeVerdictWord.induct with
  | case1 => intro _; rfl
  | case2 c => intro _; rfl
  | case3 c d rest h ih =>
      intro hmem
      exact absurd (by rw [← h.1]; exact List.mem_cons_self ..) hmem
  | case4 c d rest h ih =>
      intro hmem
      simp only [removeVerdictWord, if_neg h]
      rw [ih (fun hm => hmem (List.mem_cons_of_mem _ hm))]

theorem mem_rmChar (c a : Char) (s : List Char) (h : a ∈ rmChar c s) : a ∈ s :=
  List.mem_of_mem_filter h

theorem not_mem_rmChar (c : Char) (s : List Char) : c ∉ rmChar c s := by
  intro h
  have := List.of_mem_filter h
  simp at this

theorem rmChar_eq_self (c : Char) (s : List Char) (h : c ∉ s) : rmChar c s = s := by
  unfold rmChar
  refine List.filter_eq_self.mpr ?_
  intro a ha
  simp only [ne_eq, decide_eq_true_eq]
  intro hac
  rw [hac] at ha
  exact h ha

theorem chain'_of_not_mem (c : Char) :
    ∀ s : List Char, c ∉ s → List.Chain' (fun a b => ¬(a = c ∧ b = c)) s := by
  intro s
  induction s with
  | nil => intro _; simp
  | cons a t ih =>
      intro h
      rw [List.chain'_cons']
      refine ⟨?_, ih (fun hm => h (List.mem_cons_of_mem _ hm))⟩
      intro y _
      intro hcon
      exact h (by rw [← hcon.1]; exact List.mem_cons_self ..)

theorem fixPair_eq_self_of_lt (s : List Char) (h1 : '(' ∈ s) (h2 : ')' ∈ s)
    (hij : firstIdx '(' s < lastIdx ')' s) : fixPair s = s := by
  have hi : firstIdx '(' s < s.length := firstIdx_lt_length _ _ h1
  have hj : lastIdx ')' s < s.length := lastIdx_lt_length _ _ h2
  unfold fixPair
  rw [if_pos ⟨h1, h2⟩]
  have hdropj : s.drop (lastIdx ')' s) = ')' :: s.drop (lastIdx ')' s + 1) := by
    have h := drop_eq_getD_cons s (lastIdx ')' s) hj ' '
    rw [getD_lastIdx ')' ' ' s h2] at h
    exact h
  have hdropi : s.drop (firstIdx '(' s) = '(' :: s.drop (firstIdx '(' s + 1) := by
    have h := drop_eq_getD_cons s (firstIdx '(' s) hi ' '
    rw [getD_firstIdx '(' ' ' s h1] at h
    exact h
  have hmid : s.drop (firstIdx '(' s + 1) =
      (s.drop (firstIdx '(' s + 1)).take (lastIdx ')' s - firstIdx '(' s - 1) ++
        ')' :: s.drop (lastIdx ')' s + 1) := by
    conv_lhs => rw [← List.take_append_drop (lastIdx ')' s - firstIdx '(' s - 1)
      (s.drop (firstIdx '(' s + 1))]
    congr 1
    rw [List.drop_drop]
    have harith : firstIdx '(' s + 1 + (lastIdx ')' s - firstIdx '(' s - 1) =
        lastIdx ')' s := by omega
    rw [harith, hdropj]
  conv_rhs => rw [← List.take_append_drop (firstIdx '(' s) s, hdropi, hmid]
  simp

theorem fixPair_of_gt (s : List Char) (h1 : '(' ∈ s) (h2 : ')' ∈ s)
    (hij : lastIdx ')' s < firstIdx '(' s) :
    fixPair s = s.take (firstIdx '(' s) ++ '(' :: ')' :: s.drop (lastIdx ')' s + 1) := by
  unfold fixPair
  rw [if_pos ⟨h1, h2⟩]
  have hz : lastIdx ')' s - firstIdx '(' s - 1 = 0 := by omega
  rw [hz]
  simp

theorem firstIdx_append_cons (c : Char) :
    ∀ (A B : List Char), c ∉ A → firstIdx c (A ++ c :: B) = A.length := by
  intro A
  induction A with
  | nil => intro B _; simp [firstIdx]
  | cons a t ih =>
      intro B h
      have hac : ¬ a = c := fun hh =>
        h (by rw [hh]; exact List.mem_cons_self ..)
      simp only [List.cons_append, firstIdx, if_neg hac, List.length_cons]
      show firstIdx c (t ++ c :: B) + 1 = t.length + 1
      rw [ih B (fun hm => h (List.mem_cons_of_mem _ hm))]

theorem mem_fixPair (s : List Char) (a : Char) (h : a ∈ fixPair s) :
    a ∈ s ∨ a = '(' ∨ a = ')' := by
  unfold fixPair at h
  split_ifs at h with hb hl hr
  · rcases List.mem_append.mp h with h | h
    · rcases List.mem_append.mp h with h | h
      · exact Or.inl ((List.take_sublist _ _).subset h)
      · rcases List.mem_cons.mp h with h | h
        · exact Or.inr (Or.inl h)
        · exact Or.inl ((((s.drop _).take_sublist _).trans (s.drop_sublist _)).subset h)
    · rcases List.mem_cons.mp h with h | h
      · exact Or.inr (Or.inr h)
      · exact Or.inl ((s.drop_sublist _).subset h)
  · exact Or.inl (mem_rmChar _ _ _ h)
  · exact Or.inl (mem_rmChar _ _ _ h)
  · exact Or.inl h

theorem lastIdx_gt_case (A B : List Char) (hB : ')' ∉ B) :
    lastIdx ')' (A ++ '(' :: ')' :: B) = A.length + 1 := by
  unfold lastIdx
  have hrev : (A ++ '(' :: ')' :: B).reverse = B.reverse ++ ')' :: '(' :: A.reverse := by
    simp
  rw [hrev]
  rw [firstIdx_append_cons ')' B.reverse ('(' :: A.reverse)
    (fun hm => hB (List.mem_reverse.mp hm))]
  simp only [List.length_append, List.length_cons, List.length_reverse]
  omega

theorem fixPair_stable (s2 : List Char)
    (hc1 : List.Chain' (fun a b => ¬(a = '(' ∧ b = '(')) s2)
    (hc2 : List.Chain' (fun a b => ¬(a = ')' ∧ b = ')')) s2) :
    List.Chain' (fun a b => ¬(a = '(' ∧ b = '(')) (fixPair s2) ∧
    List.Chain' (fun a b => ¬(a = ')' ∧ b = ')')) (fixPair s2) ∧
    fixPair (fixPair s2) = fixPair s2 := by
  by_cases hb : '(' ∈ s2 ∧ ')' ∈ s2
  · have hi : firstIdx '(' s2 < s2.length := firstIdx_lt_length _ _ hb.1
    have hj : lastIdx ')' s2 < s2.length := lastIdx_lt_length _ _ hb.2
    have hne : firstIdx '(' s2 ≠ lastIdx ')' s2 := by
      intro he
      have e1 := getD_firstIdx '(' ' ' s2 hb.1
      have e2 := getD_lastIdx ')' ' ' s2 hb.2
      rw [he] at e1
      rw [e1] at e2
      exact absurd e2 (by decide)
    rcases Nat.lt_or_ge (firstIdx '(' s2) (lastIdx ')' s2) with hij | hge
    · have heq := fixPair_eq_self_of_lt s2 hb.1 hb.2 hij
      rw [heq]
      exact ⟨hc1, hc2, by rw [heq]⟩
    · have hij2 : lastIdx ')' s2 < firstIdx '(' s2 := by omega
      have heq := fixPair_of_gt s2 hb.1 hb.2 hij2
      have hAn : '(' ∉ s2.take (firstIdx '(' s2) := not_mem_take_firstIdx '(' s2
      have hBn : ')' ∉ s2.drop (lastIdx ')' s2 + 1) := not_mem_drop_lastIdx ')' s2 hb.2
      have hchainA1 : List.Chain' (fun a b => ¬(a = '(' ∧ b = '('))
          (s2.take (firstIdx '(' s2)) := by
        have h := hc1
        rw [← List.take_append_drop (firstIdx '(' s2) s2, List.chain'_append] at h
        exact h.1
      have hchainA2 : List.Chain' (fun a b => ¬(a = ')' ∧ b = ')'))
          (s2.take (firstIdx '(' s2)) := by
        have h := hc2
        rw [← List.take_append_drop (firstIdx '(' s2) s2, List.chain'_append] at h
        exact h.1
      have hchainB1 : List.Chain' (fun a b => ¬(a = '(' ∧ b = '('))
          (s2.drop (lastIdx ')' s2 + 1)) := by
        have h := hc1
        rw [← List.take_append_drop (lastIdx ')' s2 + 1) s2, List.chain'_append] at h
        exact h.2.1
      have hchainB2 : List.Chain' (fun a b => ¬(a = ')' ∧ b = ')'))
          (s2.drop (lastIdx ')' s2 + 1)) := by
        have h := hc2
        rw [← List.take_append_drop (lastIdx ')' s2 + 1) s2, List.chain'_append] at h
        exact h.2.1
      have ht1 : List.Chain' (fun a b => ¬(a = '(' ∧ b = '('))
          (s2.take (firstIdx '(' s2) ++ '(' :: ')' :: s2.drop (lastIdx ')' s2 + 1)) := by
        rw [List.chain'_append]
        refine ⟨hchainA1, ?_, ?_⟩
        · rw [List.chain'_cons]
          refine ⟨fun hcon => absurd hcon.2 (by decide), ?_⟩
          rw [List.chain'_cons']
          refine ⟨?_, hchainB1⟩
          intro y _ hcon
          exact absurd hcon.1 (by decide)
        · intro x hx y hy
          simp only [List.head?_cons, Option.mem_some_iff] at hy
          intro hcon
          rw [← hy] at hcon
          have hxA := List.mem_of_mem_getLast? hx
          rw [hcon.1] at hxA
          exact hAn hxA
      have ht2 : List.Chain' (fun a b => ¬(a = ')' ∧ b = ')'))
          (s2.take (firstIdx '(' s2) ++ '(' :: ')' :: s2.drop (lastIdx ')' s2 + 1)) := by
        rw [List.chain'_append]
        refine ⟨hchainA2, ?_, ?_⟩
        · rw [List.chain'_cons]
          refine ⟨fun hcon => absurd hcon.1 (by decide), ?_⟩
          rw [List.chain'_cons']
          refine ⟨?_, hchainB2⟩
          intro y hy hcon
          have hyB := List.mem_of_mem_head? hy
          rw [hcon.2] at hyB
          exact hBn hyB
        · intro x hx y hy
          simp only [List.head?_cons, Option.mem_some_iff] at hy
          intro hcon
          rw [← hy] at hcon
          exact absurd hcon.2 (by decide)
      have hfi : firstIdx '(' (s2.take (firstIdx '(' s2) ++ '(' :: ')' ::
          s2.drop (lastIdx ')' s2 + 1)) = (s2.take (firstIdx '(' s2)).length :=
        firstIdx_append_cons '(' _ _ hAn
      have hla : lastIdx ')' (s2.take (firstIdx '(' s2) ++ '(' :: ')' ::
          s2.drop (lastIdx ')' s2 + 1)) = (s2.take (firstIdx '(' s2)).length + 1 :=
        lastIdx_gt_case _ _ hBn
      have hstable := fixPair_eq_self_of_lt
        (s2.take (firstIdx '(' s2) ++ '(' :: ')' :: s2.drop (lastIdx ')' s2 + 1))
        (by simp) (by simp) (by rw [hfi, hla]; omega)
      rw [heq]
      exact ⟨ht1, ht2, hstable⟩
  · by_cases hl : '(' ∈ s2
    · have heq : fixPair s2 = rmChar '(' s2 := by
        unfold fixPair
        rw [if_neg hb, if_pos hl]
      have h1 : '(' ∉ rmChar '(' s2 := not_mem_rmChar _ _
      have hr : ')' ∉ s2 := fun h => hb ⟨hl, h⟩
      have h2 : ')' ∉ rmChar '(' s2 := fun h => hr (mem_rmChar _ _ _ h)
      rw [heq]
      refine ⟨chain'_of_not_mem _ _ h1, chain'_of_not_mem _ _ h2, ?_⟩
      unfold fixPair
      rw [if_neg (fun hcon => h1 hcon.1), if_neg h1, if_neg h2]
    · by_cases hr : ')' ∈ s2
      · have heq : fixPair s2 = rmChar ')' s2 := by
          unfold fixPair
          rw [if_neg hb, if_neg hl, if_pos hr]
        have h2 : ')' ∉ rmChar ')' s2 := not_mem_rmChar _ _
        have h1 : '(' ∉ rmChar ')' s2 := fun h => hl (mem_rmChar _ _ _ h)
        rw [heq]
        refine ⟨chain'_of_not_mem _ _ h1, chain'_of_not_mem _ _ h2, ?_⟩
        unfold fixPair
        rw [if_neg (fun hcon => h1 hcon.1), if_neg h1, if_neg h2]
      · have heq : fixPair s2 = s2 := by
          unfold fixPair
          rw [if_neg hb, if_neg hl, if_neg hr]
        rw [heq]
        refine ⟨hc1, hc2, ?_⟩
        unfold fixPair
        rw [if_neg hb, if_neg hl, if_neg hr]

theorem mem_foldl_rmChar :
    ∀ (l s : List Char) (a : Char),
      a ∈ List.foldl (fun acc c => rmChar c acc) s l → a ∈ s := by
  intro l
  induction l with
  | nil => intro s a h; simpa using h
  | cons c t ih =>
      intro s a h
      rw [List.foldl_cons] at h
      exact mem_rmChar c a s (ih (rmChar c s) a h)

theorem not_mem_foldl_rmChar_mem (l s : List Char) (a : Char) (h : a ∈ l) :
    a ∉ List.foldl (fun acc c => rmChar c acc) s l := by
  induction l generalizing s with
  | nil => simp at h
  | cons c t ih =>
      rw [List.foldl_cons]
      rcases List.mem_cons.mp h with h1 | h1
      · subst h1
        intro hmem
        exact not_mem_rmChar a s (mem_foldl_rmChar t (rmChar a s) a hmem)
      · exact ih (rmChar c s) h1

theorem foldl_rmChar_eq_self :
    ∀ (l s : List Char), (∀ c ∈ l, c ∉ s) →
      List.foldl (fun acc c => rmChar c acc) s l = s := by
  intro l
  induction l with
  | nil => intro s _; rfl
  | cons c t ih =>
      intro s h
      rw [List.foldl_cons, rmChar_eq_self c s (h c (List.mem_cons_self ..))]
      exact ih s (fun d hd => h d (List.mem_cons_of_mem _ hd))

theorem mem_mapChar_ne (src tgt a : Char) (s : List Char) (ha : a ≠ tgt)
    (h : a ∈ mapChar src tgt s) : a ∈ s := by
  unfold mapChar at h
  obtain ⟨b, hb, hba⟩ := List.mem_map.mp h
  by_cases hbs : b = src
  · rw [if_pos hbs] at hba
    exact absurd hba.symm ha
  · rw [if_neg hbs] at hba
    rw [← hba]
    exact hb

theorem not_mem_mapChar_src (src tgt : Char) (hne : src ≠ tgt) (s : List Char) :
    src ∉ mapChar src tgt s := by
  intro h
  obtain ⟨b, hb, hba⟩ := List.mem_map.mp h
  by_cases hbs : b = src
  · rw [if_pos hbs] at hba
    exact hne hba.symm
  · rw [if_neg hbs] at hba
    exact hbs hba

theorem mapChar_eq_self (src tgt : Char) (s : List Char) (h : src ∉ s) :
    mapChar src tgt s = s := by
  unfold mapChar
  have hcong : ∀ a ∈ s, (if a = src then tgt else a) = a := by
    intro a ha
    have hne : ¬ a = src := by
      intro he
      rw [he] at ha
      exact h ha
    rw [if_neg hne]
  rw [List.map_congr_left hcong]
  exact List.map_id' s

set_option maxHeartbeats 1600000 in
/-- C8: both case-number normalizers are idempotent.  A second pass of
    `preprocess_case_num` finds none of the removed characters, no runs of
    parentheses, and an already-normalized bracket pair, and a second pass
    of `preprocess_xzgxf_case_num` finds no space and no bracket other than
    the full-width parentheses it produces. -/
theorem preprocess_case_num_idempotent :
    (∀ x : List Char, preprocessCaseNum (preprocessCaseNum x) = preprocessCaseNum x) ∧
    (∀ x : List Char,
      preprocessXzgxfCaseNum (preprocessXzgxfCaseNum x) = preprocessXzgxfCaseNum x) := by
  constructor
  · intro x
    have hc1 : List.Chain' (fun a b => ¬(a = '(' ∧ b = '('))
        (collapseRuns ')' (collapseRuns '(' (caseNumRemovals x))) :=
      chain'_collapseRuns_preserved _ ')' _ (chain'_collapseRuns_self '(' _)
    have hc2 : List.Chain' (fun a b => ¬(a = ')' ∧ b = ')'))
        (collapseRuns ')' (collapseRuns '(' (caseNumRemovals x))) :=
      chain'_collapseRuns_self ')' _
    obtain ⟨ht1, ht2, hstab⟩ :=
      fixPair_stable (collapseRuns ')' (collapseRuns '(' (caseNumRemovals x))) hc1 hc2
    have step : ∀ c : Char, c ∉ caseNumRemovals x → ¬ c = '(' → ¬ c = ')' →
        c ∉ preprocessCaseNum x := by
      intro c hcr hne1 hne2 hmem
      rcases mem_fixPair _ c hmem with h | h | h
      · exact hcr ((collapseRuns_sublist '(' _).subset
          ((collapseRuns_sublist ')' _).subset h))
      · exact hne1 h
      · exact hne2 h
    have stepL2 : ∀ c : Char,
        c ∈ (['判', '年', '[', ']', '【', '】', '（', '）', '\x7b', '\x7d'] : List Char) →
        ¬ c = '(' → ¬ c = ')' → c ∉ preprocessCaseNum x := by
      intro c hc hne1 hne2
      exact step c (not_mem_foldl_rmChar_mem _ _ c hc) hne1 hne2
    have stepL1 : ∀ c : Char, c ∈ ([' ', '，', ','] : List Char) →
        ¬ c = '(' → ¬ c = ')' → c ∉ preprocessCaseNum x := by
      intro c hc hne1 hne2
      refine step c ?_ hne1 hne2
      intro h
      have h1 := mem_foldl_rmChar _ _ c h
      have h2 := (removeVerdictWord_sublist _).subset h1
      exact not_mem_foldl_rmChar_mem _ x c hc h2
    show preprocessCaseNum (preprocessCaseNum x) = preprocessCaseNum x
    have hone : preprocessCaseNum (preprocessCaseNum x) =
        fixPair (collapseRuns ')' (collapseRuns '('
          (caseNumRemovals (preprocessCaseNum x)))) := rfl
    rw [hone]
    have hrem : caseNumRemovals (preprocessCaseNum x) = preprocessCaseNum x := by
      unfold caseNumRemovals
      rw [foldl_rmChar_eq_self [' ', '，', ','] (preprocessCaseNum x) ?hL1]
      case hL1 =>
        intro c hc
        refine stepL1 c hc ?_ ?_ <;>
          (intro he; subst he; simp at hc)
      rw [removeVerdictWord_eq_self (preprocessCaseNum x)
        (stepL2 '判' (by decide) (by decide) (by decide))]
      rw [foldl_rmChar_eq_self _ (preprocessCaseNum x) ?hL2]
      case hL2 =>
        intro c hc
        refine stepL2 c hc ?_ ?_ <;>
          (intro he; subst he; simp at hc)
    rw [hrem]
    have htcoll1 : collapseRuns '(' (preprocessCaseNum x) = preprocessCaseNum x :=
      collapseRuns_eq_self '(' _ ht1
    have htcoll2 : collapseRuns ')' (preprocessCaseNum x) = preprocessCaseNum x :=
      collapseRuns_eq_self ')' _ ht2
    rw [htcoll1, htcoll2]
    exact hstab
  · intro x
    have hsp : ' ' ∉ preprocessXzgxfCaseNum x := by
      intro h
      unfold preprocessXzgxfCaseNum at h
      have h1 := mem_mapChar_ne ')' '）' ' ' _ (by decide) h
      have h2 := mem_mapChar_ne '(' '（' ' ' _ (by decide) h1
      have h3 := mem_mapChar_ne '】' '）' ' ' _ (by decide) h2
      have h4 := mem_mapChar_ne '【' '（' ' ' _ (by decide) h3
      have h5 := mem_mapChar_ne ']' '）' ' ' _ (by decide) h4
      have h6 := mem_mapChar_ne '[' '（' ' ' _ (by decide) h5
      exact not_mem_rmChar ' ' x h6
    have hlb : '[' ∉ preprocessXzgxfCaseNum x := by
      intro h
      unfold preprocessXzgxfCaseNum at h
      have h1 := mem_mapChar_ne ')' '）' '[' _ (by decide) h
      have h2 := mem_mapChar_ne '(' '（' '[' _ (by decide) h1
      have h3 := mem_mapChar_ne '】' '）' '[' _ (by decide) h2
      have h4 := mem_mapChar_ne '【' '（' '[' _ (by decide) h3
      have h5 := mem_mapChar_ne ']' '）' '[' _ (by decide) h4
      exact not_mem_mapChar_src '[' '（' (by decide) _ h5
    have hrb : ']' ∉ preprocessXzgxfCaseNum x := by
      intro h
      unfold preprocessXzgxfCaseNum at h
      have h1 := mem_mapChar_ne ')' '）' ']' _ (by decide) h
      have h2 := mem_mapChar_ne '(' '（' ']' _ (by decide) h1
      have h3 := mem_mapChar_ne '】' '）' ']' _ (by decide) h2
      have h4 := mem_mapChar_ne '【' '（' ']' _ (by decide) h3
      exact not_mem_mapChar_src ']' '）' (by decide) _ h4
    have hlc : '【' ∉ preprocessXzgxfCaseNum x := by
      intro h
      unfold preprocessXzgxfCaseNum at h
      have h1 := mem_mapChar_ne ')' '）' '【' _ (by decide) h
      have h2 := mem_mapChar_ne '(' '（' '【' _ (by decide) h1
      have h3 := mem_mapChar_ne '】' '）' '【' _ (by decide) h2
      exact not_mem_mapChar_src '【' '（' (by decide) _ h3
    have hrc : '】' ∉ preprocessXzgxfCaseNum x := by
      intro h
      unfold preprocessXzgxfCaseNum at h
      have h1 := mem_mapChar_ne ')' '）' '】' _ (by decide) h
      have h2 := mem_mapChar_ne '(' '（' '】' _ (by decide) h1
      exact not_mem_mapChar_src '】' '）' (by decide) _ h2
    have hlp : '(' ∉ preprocessXzgxfCaseNum x := by
      intro h
      unfold preprocessXzgxfCaseNum at h
      have h1 := mem_mapChar_ne ')' '）' '(' _ (by decide) h
      exact not_mem_mapChar_src '(' '（' (by decide) _ h1
    have hrp : ')' ∉ preprocessXzgxfCaseNum x := by
      intro h
      unfold preprocessXzgxfCaseNum at h
      exact not_mem_mapChar_src ')' '）' (by decide) _ h
    show preprocessXzgxfCaseNum (preprocessXzgxfCaseNum x) = preprocessXzgxfCaseNum x
    have hone : preprocessXzgxfCaseNum (preprocessXzgxfCaseNum x) =
        mapChar ')' '）' (mapChar '(' '（' (mapChar '】' '）' (mapChar '【' '（'
          (mapChar ']' '）' (mapChar '[' '（'
            (rmChar ' ' (preprocessXzgxfCaseNum x))))))) := rfl
    rw [hone, rmChar_eq_self ' ' _ hsp, mapChar_eq_self '[' '（' _ hlb,
      mapChar_eq_self ']' '）' _ hrb, mapChar_eq_self '【' '（' _ hlc,
      mapChar_eq_self '】' '）' _ hrc, mapChar_eq_self '(' '（' _ hlp,
      mapChar_eq_self ')' '）' _ hrp]

/-! ## Embedding of the mention-resolution pass
    (src/app/preprocessor.py, Preprocessor._run_once, lines 653-681)

A mention is a recognized named entity (type and raw content).  The
cascading lookup (`query_named_entity` with its per-type query functions)
is an external service interaction; it is modelled by an oracle
`lookup : Mention → Option (List Char)` returning the authoritative
standardized field on a hit.  On a hit the source sets
`named_entity['standardized']` to that field and `named_entity['found'] =
True`; on a miss `standardized` keeps its initial value (the raw content)
and no `found` key exists.  A mention skipped by the `queried_set` check
never receives a `standardized` key at all, modelled as `none`.  The `NER`
dictionary built alongside the substitution does not affect the question
text and is not modelled. -/

/-- A recognized named entity: its type tag and raw content. -/
structure Mention where
  type : List Char
  content : List Char
  deriving DecidableEq

/-- A mention after the resolution loop: `standardized = none` models a
    dictionary with no standardized key (the skipped-duplicate case). -/
structure ResolvedMention where
  mention : Mention
  standardized : Option (List Char)
  found : Bool
  deriving DecidableEq

/-- The resolution loop with its `queried_set`; the second component
    counts the cascading lookups performed. -/
def resolveMentionsAux (lookup : Mention → Option (List Char)) :
    List Mention → List (List Char) → List ResolvedMention × Nat
  | [], _ => ([], 0)
  | m :: rest, queried =>
      if m.content ∈ queried then
        let p := resolveMentionsAux lookup rest queried
        (⟨m, none, false⟩ :: p.1, p.2)
      else
        let r : ResolvedMention :=
          match lookup m with
          | some std => ⟨m, some std, true⟩
          | none => ⟨m, some m.content, false⟩
        let p := resolveMentionsAux lookup rest (m.content :: queried)
        (r :: p.1, p.2 + 1)

/-- The resolution loop started with an empty `queried_set`. -/
def resolveMentions (lookup : Mention → Option (List Char)) (ms : List Mention) :
    List ResolvedMention × Nat :=
  resolveMentionsAux lookup ms []

/-- One substitution step of lines 667-678: a mention without a
    standardized key is skipped, otherwise the first occurrence of its raw
    content is replaced by its standardized form. -/
def applyOne (q : List Char) (r : ResolvedMention) : List Char :=
  match r.standardized with
  | none => q
  | some std => replaceFirst r.mention.content std q

/-- The substitution loop: one left-to-right pass per mention, in original
    recognition order. -/
def applyMentions (q : List Char) (rs : List ResolvedMention) : List Char :=
  rs.foldl applyOne q

theorem replaceFirst_prefix_case (old new s : List Char)
    (h : old.isPrefixOf s = true) :
    replaceFirst old new s = new ++ s.drop old.length := by
  cases s with
  | nil => simp only [replaceFirst, if_pos h, List.drop_nil, List.append_nil]
  | cons c t => simp only [replaceFirst, if_pos h]

theorem replaceFirst_cons_skip (old new : List Char) (c : Char)
    (t : List Char) (h : ¬ old.isPrefixOf (c :: t) = true) :
    replaceFirst old new (c :: t) = c :: replaceFirst old new t := by
  simp only [replaceFirst, if_neg h]

theorem replaceFirst_self (old : List Char) : ∀ q, replaceFirst old old q = q := by
  intro q
  induction q with
  | nil =>
      by_cases h : old.isPrefixOf ([] : List Char) = true
      · have : old = [] := by
          cases old with
          | nil => rfl
          | cons a t => simp [List.isPrefixOf] at h
        rw [this]
        rfl
      · simp only [replaceFirst, if_neg h]
  | cons c t ih =>
      by_cases h : old.isPrefixOf (c :: t) = true
      · rw [replaceFirst_prefix_case old old _ h]
        obtain ⟨u, hu⟩ := List.isPrefixOf_iff_prefix.mp h
        rw [← hu, List.drop_left]
      · rw [replaceFirst_cons_skip old old c t h, ih]

/-- C5: the substitution pass replaces, per mention and in recognition
    order, only the first occurrence of the raw content (an identical later
    occurrence is copied verbatim), and a mention that is unresolved
    (standardized still equal to its content) or skipped (no standardized
    key) leaves the question unchanged. -/
theorem mention_substitution_first_only :
    (∀ (m : Mention) (std pre mid post : List Char) (fnd : Bool),
      (∀ i, i < pre.length →
        ¬ m.content.isPrefixOf
          ((pre ++ m.content ++ (mid ++ m.content ++ post)).drop i) = true) →
      applyMentions (pre ++ m.content ++ (mid ++ m.content ++ post))
          [⟨m, some std, fnd⟩] =
        pre ++ std ++ (mid ++ m.content ++ post)) ∧
    (∀ (q : List Char) (r : ResolvedMention),
      r.standardized = some r.mention.content ∨ r.standardized = none →
      applyMentions q [r] = q) := by
  constructor
  · intro m std pre mid post fnd hfirst
    induction pre with
    | nil =>
        show replaceFirst m.content std ([] ++ m.content ++ (mid ++ m.content ++ post)) = _
        rw [List.nil_append]
        rw [replaceFirst_prefix_case m.content std _
          (List.isPrefixOf_iff_prefix.mpr (List.prefix_append _ _))]
        rw [List.drop_left]
        rw [List.nil_append]
    | cons a pre ih =>
        have h0 := hfirst 0 (by simp)
        rw [List.drop_zero] at h0
        have hrest : ∀ i, i < pre.length →
            ¬ m.content.isPrefixOf
              ((pre ++ m.content ++ (mid ++ m.content ++ post)).drop i) = true := by
          intro i hi
          have := hfirst (i + 1) (by simpa using Nat.succ_lt_succ hi)
          simpa using this
        show replaceFirst m.content std
            ((a :: pre) ++ m.content ++ (mid ++ m.content ++ post)) = _
        rw [show (a :: pre) ++ m.content ++ (mid ++ m.content ++ post) =
          a :: (pre ++ m.content ++ (mid ++ m.content ++ post)) by simp]
        rw [replaceFirst_cons_skip m.content std _ _
          (by
            intro hcon
            refine h0 ?_
            rw [show (a :: pre) ++ m.content ++ (mid ++ m.content ++ post) =
              a :: (pre ++ m.content ++ (mid ++ m.content ++ post)) by simp]
            exact hcon)]
        rw [show applyMentions (pre ++ m.content ++ (mid ++ m.content ++ post))
            [⟨m, some std, fnd⟩] =
          replaceFirst m.content std (pre ++ m.content ++ (mid ++ m.content ++ post))
          from rfl] at ih
        rw [ih hrest]
        simp
  · intro q r h
    rcases h with h | h
    · show applyOne q r = q
      unfold applyOne
      rw [h]
      exact replaceFirst_self r.mention.content q
    · show applyOne q r = q
      unfold applyOne
      rw [h]

/-- Witness for C5: `甲` occurs twice in `x甲y甲z`; only the first
    occurrence is standardized to `甲公司`, and an unresolved mention
    leaves the question untouched. -/
theorem mention_substitution_first_only_witness :
    applyMentions ("x".toList ++ "甲".toList ++ ("y".toList ++ "甲".toList ++ "z".toList))
        [⟨⟨"公司名称".toList, "甲".toList⟩, some "甲公司".toList, true⟩] =
      "x".toList ++ "甲公司".toList ++ ("y".toList ++ "甲".toList ++ "z".toList) ∧
    applyMentions "ab".toList
      [⟨⟨"法院名称".toList, "cd".toList⟩, some "cd".toList, false⟩] = "ab".toList :=
  ⟨mention_substitution_first_only.1 ⟨"公司名称".toList, "甲".toList⟩ "甲公司".toList
      "x".toList "y".toList "z".toList true (by decide),
    mention_substitution_first_only.2 "ab".toList
      ⟨⟨"法院名称".toList, "cd".toList⟩, some "cd".toList, false⟩ (Or.inl rfl)⟩

/-- The lookup oracle used in the C6 counterexample: content `甲` resolves
    to the authoritative name `甲公司`. -/
def lkDup : Mention → Option (List Char) :=
  fun m => if m.content = "甲".toList then some "甲公司".toList else none

/-- Counterexample to C6 as stated: two filtered mentions with identical
    content `甲` but different types.  The lookup runs once, but the second
    mention does not share the first mention's result: it ends with no
    standardized value and no found flag, while the first has
    standardized `甲公司` and found `True`. -/
theorem duplicate_mention_not_shared :
    resolveMentions lkDup
        [⟨"公司名称".toList, "甲".toList⟩, ⟨"法院名称".toList, "甲".toList⟩] =
      ([⟨⟨"公司名称".toList, "甲".toList⟩, some "甲公司".toList, true⟩,
        ⟨⟨"法院名称".toList, "甲".toList⟩, none, false⟩], 1) ∧
    (some "甲公司".toList ≠ (none : Option (List Char))) ∧ true ≠ false := by
  refine ⟨by rfl, by simp, by simp⟩

/-- C6 (amended): for two filtered mentions with identical content, the
    cascading lookup is performed only once, and the second mention is
    skipped entirely: it receives no standardized value and no found flag
    (so the substitution step ignores it), rather than sharing the first
    mention's result. -/
theorem duplicate_mention_skipped (lookup : Mention → Option (List Char))
    (m₁ m₂ : Mention) (h : m₂.content = m₁.content) :
    resolveMentions lookup [m₁, m₂] =
      ([(match lookup m₁ with
         | some std => (⟨m₁, some std, true⟩ : ResolvedMention)
         | none => ⟨m₁, some m₁.content, false⟩),
        ⟨m₂, none, false⟩], 1) ∧
    (∀ q, applyMentions q [⟨m₂, none, false⟩] = q) := by
  constructor
  · cases hl : lookup m₁ <;>
      simp [resolveMentions, resolveMentionsAux, h, hl]
  · intro q
    show applyOne q ⟨m₂, none, false⟩ = q
    rfl

/-- Witness for C6 at a concrete lookup and mention pair. -/
theorem duplicate_mention_skipped_witness :
    resolveMentions lkDup
        [⟨"统一社会信用代码".toList, "甲".toList⟩, ⟨"公司简称".toList, "甲".toList⟩] =
      ([(match lkDup ⟨"统一社会信用代码".toList, "甲".toList⟩ with
         | some std => (⟨⟨"统一社会信用代码".toList, "甲".toList⟩, some std, true⟩ :
            ResolvedMention)
         | none => ⟨⟨"统一社会信用代码".toList, "甲".toList⟩, some "甲".toList, false⟩),
        ⟨⟨"公司简称".toList, "甲".toList⟩, none, false⟩], 1) ∧
    (∀ q, applyMentions q [⟨⟨"公司简称".toList, "甲".toList⟩, none, false⟩] = q) :=
  duplicate_mention_skipped lkDup ⟨"统一社会信用代码".toList, "甲".toList⟩
    ⟨"公司简称".toList, "甲".toList⟩ rfl

/-! ## C9: the batch-state scan (src/run.py, process_questions lines 132-145)

Each line of the state file is a record with `id`, `question` and `answer`
fields; the scan schedules a reprocessing task exactly for records passing
the test on line 137-138. -/

/-- One record of the line-delimited batch state file. -/
structure BatchRecord where
  id : List Char
  question : List Char
  answer : List Char
  deriving DecidableEq

/-- The error marker written into the answer field of failed questions. -/
def errorMarker : List Char := "处理出错".toList

/-- The test at run.py lines 137-138:
    `data['answer'] == "" or (data['answer'] and data['answer'].startswith("处理出错"))`
    (a Python string is truthy exactly when it is nonempty). -/
def shouldReprocess (a : List Char) : Bool :=
  decide (a = []) || (!decide (a = []) && errorMarker.isPrefixOf a)

/-- The scheduling scan: one task is created per record passing the
    test, in file order. -/
def scheduledQuestions (records : List BatchRecord) : List BatchRecord :=
  records.filter (fun r => shouldReprocess r.answer)

theorem shouldReprocess_iff (a : List Char) :
    shouldReprocess a = true ↔ (a = [] ∨ errorMarker <+: a) := by
  by_cases he : a = []
  · simp [shouldReprocess, he]
  · simp [shouldReprocess, he, List.isPrefixOf_iff_prefix]

/-- C9: a record is scheduled for reprocessing if and only if its answer
    is the empty string or starts with the error marker 处理出错; every
    record with any other non-empty answer is skipped. -/
theorem reprocess_iff_empty_or_errored (records : List BatchRecord) (r : BatchRecord) :
    r ∈ scheduledQuestions records ↔
      r ∈ records ∧ (r.answer = [] ∨ errorMarker <+: r.answer) := by
  unfold scheduledQuestions
  rw [List.mem_filter]
  exact and_congr_right (fun _ => shouldReprocess_iff r.answer)

/-! ## Embedding of Coder.run_code (src/app/coder.py)

`run_code` prepends the `CODE_TEMPLATE` import header when the stripped
input does not already start with the import line, rewrites per-line print
calls over legal-document list variables to `pass`
(`replace_print_with_pass`), dedents (`textwrap.dedent`) and submits the
result to the sandbox.  The regex `print\(.*KEYWORD.*\)` is modelled by an
explicit leftmost-then-greedy matcher: a match starts at the least
position carrying `print(` that can be completed, and ends at the greatest
closing parenthesis preceded by an occurrence of the keyword (Python `.`
does not cross newlines; the lines being rewritten contain none, having
been produced by `split('\n')`).  The bounded recursions use a fuel equal
to the input length, which each step strictly decreases, so the fuel never
runs out on a live match. -/

/-- The import line of `CODE_TEMPLATE`. -/
def importHeader : List Char := "from app.law.tools import *".toList

/-- Python whitespace stripped by `str.strip`. -/
def isPyWs (c : Char) : Bool :=
  c = ' ' || c = '\t' || c = '\n' || c = '\r' || c.toNat = 11 || c.toNat = 12

/-- Python `str.strip()`. -/
def pyStrip (s : List Char) : List Char :=
  ((s.dropWhile isPyWs).reverse.dropWhile isPyWs).reverse

/-- Python `text.split('\n')`. -/
def splitLinesChar : List Char → List (List Char)
  | [] => [[]]
  | c :: t =>
      match splitLinesChar t with
      | [] => [[c]]
      | h :: rest => if c = '\n' then [] :: h :: rest else (c :: h) :: rest

/-- Python `'\n'.join(lines)`. -/
def joinLines : List (List Char) → List Char
  | [] => []
  | [l] => l
  | l :: ls => l ++ '\n' :: joinLines ls

/-- The literal `print(` opening the regex `print\(.*KEYWORD.*\)`. -/
def printPat : List Char := "print(".toList

/-- A closing parenthesis at position `r` validly ends a match of
    `print\(.*kw.*\)` starting at `p`: some occurrence of `kw` fits
    between the `print(` and the parenthesis, and the matched span
    contains no newline (Python `.` does not match one). -/
def validR (kw line : List Char) (p r : Nat) : Bool :=
  (line.getD r ' ' = ')') &&
  !(((line.take (r + 1)).drop p).contains '\n') &&
  (List.range (r + 1)).any (fun q =>
    decide (p + 6 ≤ q) && kw.isPrefixOf (line.drop q) && decide (q + kw.length ≤ r))

/-- A match of `print\(.*kw.*\)` can start at position `p`. -/
def canMatchAt (kw line : List Char) (p : Nat) : Bool :=
  printPat.isPrefixOf (line.drop p) &&
  (List.range line.length).any (fun r => validR kw line p r)

/-- The leftmost start position of a match (regex matches are leftmost). -/
def findP (kw line : List Char) : Option Nat :=
  (List.range line.length).find? (canMatchAt kw line)

/-- The greedy end of the match starting at `p`: the greatest valid
    closing parenthesis. -/
def findR (kw line : List Char) (p : Nat) : Nat :=
  (List.range line.length).foldl (fun acc r => if validR kw line p r then r else acc) 0

/-- Python `re.sub(print\(.*kw.*\), 'pass', line)`: replace each
    (leftmost, greedy) match by `pass` and continue after it. -/
def regexSubPrintGo (kw : List Char) : Nat → List Char → List Char
  | 0, line => line
  | fuel + 1, line =>
      match findP kw line with
      | none => line
      | some p =>
          line.take p ++ "pass".toList ++
            regexSubPrintGo kw fuel (line.drop (findR kw line p + 1))

def regexSubPrint (kw line : List Char) : List Char :=
  regexSubPrintGo kw line.length line

/-- Python `s.replace(old, new)` (all occurrences, left to right); for the
    empty pattern Python inserts `new` between all characters. -/
def replaceAllGo (old new : List Char) : Nat → List Char → List Char
  | 0, s => s
  | fuel + 1, s =>
      if old.isPrefixOf s then new ++ replaceAllGo old new fuel (s.drop old.length)
      else
        match s with
        | [] => []
        | c :: t => c :: replaceAllGo old new fuel t

def replaceAll (old new s : List Char) : List Char :=
  if old = [] then new ++ s.flatMap (fun c => c :: new)
  else replaceAllGo old new s.length s

/-- The body of the `for i, line in enumerate(lines)` loop of
    `replace_print_with_pass` (coder.py lines 14-32): every condition and
    every rewrite reads the original `line`, so the last applicable
    rewrite wins. -/
def replaceLine (line : List Char) : List Char :=
  let r0 := line
  let r1 := if containsSub "print(legal_doc_list)".toList line then
      replaceAll "print(legal_doc_list)".toList "pass".toList line else r0
  let r2 := if containsSub "print".toList line &&
      containsSub "legal_doc_list".toList line then
      regexSubPrint "legal_doc_list".toList line else r1
  let r3 := if containsSub "print".toList line &&
      containsSub "案件列表".toList line then
      regexSubPrint "案件列表".toList line else r2
  let r4 := if containsSub "print".toList line &&
      containsSub "legal_docs".toList line then
      regexSubPrint "legal_docs".toList line else r3
  let r5 := if containsSub "print".toList line &&
      containsSub "列表".toList line && !containsSub "公司".toList line then
      regexSubPrint "列表".toList line else r4
  r5

/-- coder.py `replace_print_with_pass`. -/
def replacePrintWithPass (text : List Char) : List Char :=
  joinLines ((splitLinesChar text).map replaceLine)

/-- Characters forming a dedent margin (`[ \t]`). -/
def isIndentChar (c : Char) : Bool := c = ' ' || c = '\t'

/-- Step one of `textwrap.dedent`: lines consisting solely of whitespace
    are normalized to empty lines. -/
def emptyWsOnly (l : List Char) : List Char :=
  if !l.isEmpty && l.all isIndentChar then [] else l

/-- Longest common prefix of two indents. -/
def commonPrefix : List Char → List Char → List Char
  | a :: t1, b :: t2 => if a = b then a :: commonPrefix t1 t2 else []
  | _, _ => []

/-- Python `textwrap.dedent`: empty whitespace-only lines, compute the
    longest common leading `[ \t]` margin of the lines with content, and
    strip it from every line starting with it. -/
def dedent (text : List Char) : List Char :=
  let ls := (splitLinesChar text).map emptyWsOnly
  let indents := ls.filterMap (fun l =>
    if l.any (fun c => !isIndentChar c) then some (l.takeWhile isIndentChar) else none)
  let margin :=
    match indents with
    | [] => ([] : List Char)
    | h :: t => t.foldl commonPrefix h
  joinLines (ls.map (fun l => if margin.isPrefixOf l then l.drop margin.length else l))

/-- coder.py `CODE_TEMPLATE.format(code=code)`:
    `"\nfrom app.law.tools import *\n\n{code}\n"`. -/
def codeTemplate (code : List Char) : List Char :=
  '\n' :: (importHeader ++ '\n' :: '\n' :: (code ++ ['\n']))

/-- coder.py `Coder.run_code` up to submission: the code string actually
    sent to the sandbox. -/
def prepareCode (code : List Char) : List Char :=
  let code1 :=
    if !(importHeader.isPrefixOf (pyStrip code)) then codeTemplate code else code
  dedent (replacePrintWithPass code1)

theorem splitLinesChar_ne_nil : ∀ s : List Char, splitLinesChar s ≠ [] := by
  intro s
  cases s with
  | nil => simp [splitLinesChar]
  | cons c t =>
      simp only [splitLinesChar]
      cases hst : splitLinesChar t with
      | nil => simp
      | cons h r => split_ifs <;> simp

theorem split_cons_nl (rest : List Char) :
    splitLinesChar ('\n' :: rest) = [] :: splitLinesChar rest := by
  simp only [splitLinesChar]
  cases hst : splitLinesChar rest with
  | nil => exact absurd hst (splitLinesChar_ne_nil rest)
  | cons h r => simp

theorem split_append_nonl : ∀ (a b : List Char), '\n' ∉ a →
    splitLinesChar (a ++ '\n' :: b) = a :: splitLinesChar b := by
  intro a
  induction a with
  | nil => intro b _; exact split_cons_nl b
  | cons c t ih =>
      intro b h
      have hc : ¬ c = '\n' := fun he => h (by rw [he]; exact List.mem_cons_self ..)
      have ht : '\n' ∉ t := fun hm => h (List.mem_cons_of_mem _ hm)
      simp only [List.cons_append, splitLinesChar]
      rw [show splitLinesChar (t.append ('\n' :: b)) = t :: splitLinesChar b from ih b ht]
      simp [hc]

theorem split_singleton_of_no_nl : ∀ l : List Char, '\n' ∉ l →
    splitLinesChar l = [l] := by
  intro l
  induction l with
  | nil => intro _; rfl
  | cons c t ih =>
      intro h
      have hc : ¬ c = '\n' := fun he => h (by rw [he]; exact List.mem_cons_self ..)
      have ht : '\n' ∉ t := fun hm => h (List.mem_cons_of_mem _ hm)
      simp only [splitLinesChar]
      rw [ih ht]
      simp [hc]

theorem split_joinLines : ∀ ls : List (List Char), ls ≠ [] →
    (∀ l ∈ ls, '\n' ∉ l) → splitLinesChar (joinLines ls) = ls := by
  intro ls
  induction ls with
  | nil => intro h _; exact absurd rfl h
  | cons l t ih =>
      intro _ hno
      cases t with
      | nil => exact split_singleton_of_no_nl l (hno l (List.mem_cons_self ..))
      | cons l2 t2 =>
          show splitLinesChar (l ++ '\n' :: joinLines (l2 :: t2)) = l :: l2 :: t2
          rw [split_append_nonl l _ (hno l (List.mem_cons_self ..))]
          rw [ih (by simp) (fun x hx => hno x (List.mem_cons_of_mem _ hx))]

theorem joinLines_infix_of_mem : ∀ (ls : List (List Char)) (l : List Char),
    l ∈ ls → l <:+: joinLines ls := by
  intro ls
  induction ls with
  | nil => intro l h; simp at h
  | cons h t ih =>
      intro l hm
      rcases List.mem_cons.mp hm with he | he
      · subst he
        cases t with
        | nil => exact List.infix_refl l
        | cons h2 t2 =>
            show l <:+: l ++ '\n' :: joinLines (h2 :: t2)
            exact (List.prefix_append l _).isInfix
      · cases t with
        | nil => simp at he
        | cons h2 t2 =>
            have h1 := ih l he
            show l <:+: h ++ '\n' :: joinLines (h2 :: t2)
            exact (h1.trans (List.suffix_cons '\n' _).isInfix).trans
              (List.suffix_append h _).isInfix

theorem containsSub_infix_iff (p s : List Char) :
    containsSub p s = true ↔ p <:+: s := by
  unfold containsSub
  rw [List.any_eq_true]
  constructor
  · rintro ⟨i, _, hpre⟩
    obtain ⟨u, hu⟩ := List.isPrefixOf_iff_prefix.mp hpre
    refine ⟨s.take i, u, ?_⟩
    rw [List.append_assoc, hu, List.take_append_drop]
  · rintro ⟨t₁, t₂, ht⟩
    refine ⟨t₁.length, ?_, ?_⟩
    · rw [List.mem_range]
      have h1 : t₁.length ≤ s.length := by
        rw [← ht]
        simp only [List.length_append]
        omega
      omega
    · rw [List.isPrefixOf_iff_prefix, ← ht, List.append_assoc, List.drop_left]
      exact List.prefix_append p t₂

theorem foldl_commonPrefix_nil :
    ∀ l : List (List Char), List.foldl commonPrefix [] l = [] := by
  intro l
  induction l with
  | nil => rfl
  | cons h t ih =>
      rw [List.foldl_cons]
      have hcp : commonPrefix [] h = [] := by cases h <;> rfl
      rw [hcp]
      exact ih

theorem nil_isPrefixOf_true (l : List Char) : ([] : List Char).isPrefixOf l = true := by
  cases l <;> rfl

theorem mem_regexSubPrintGo (kw : List Char) :
    ∀ (fuel : Nat) (line : List Char) (a : Char),
      a ∈ regexSubPrintGo kw fuel line → a ∈ line ∨ a ∈ "pass".toList := by
  intro fuel
  induction fuel with
  | zero => intro line a h; exact Or.inl h
  | succ fuel ih =>
      intro line a h
      simp only [regexSubPrintGo] at h
      cases hfp : findP kw line with
      | none => rw [hfp] at h; exact Or.inl h
      | some p =>
          rw [hfp] at h
          rcases List.mem_append.mp h with h | h
          · rcases List.mem_append.mp h with h | h
            · exact Or.inl ((List.take_sublist _ _).subset h)
            · exact Or.inr h
          · rcases ih _ a h with h | h
            · exact Or.inl ((List.drop_sublist _ _).subset h)
            · exact Or.inr h

theorem mem_replaceAllGo (old new : List Char) :
    ∀ (fuel : Nat) (s : List Char) (a : Char),
      a ∈ replaceAllGo old new fuel s → a ∈ s ∨ a ∈ new := by
  intro fuel
  induction fuel with
  | zero => intro s a h; exact Or.inl h
  | succ fuel ih =>
      intro s a h
      simp only [replaceAllGo] at h
      by_cases hp : old.isPrefixOf s
      · rw [if_pos hp] at h
        rcases List.mem_append.mp h with h | h
        · exact Or.inr h
        · rcases ih _ a h with h | h
          · exact Or.inl ((List.drop_sublist _ _).subset h)
          · exact Or.inr h
      · rw [if_neg hp] at h
        cases s with
        | nil => simp at h
        | cons c t =>
            rcases List.mem_cons.mp h with h | h
            · exact Or.inl (by rw [h]; exact List.mem_cons_self ..)
            · rcases ih t a h with h | h
              · exact Or.inl (List.mem_cons_of_mem _ h)
              · exact Or.inr h

theorem mem_replaceAll (old new s : List Char) (a : Char)
    (h : a ∈ replaceAll old new s) : a ∈ s ∨ a ∈ new := by
  unfold replaceAll at h
  split_ifs at h with he
  · rcases List.mem_append.mp h with h | h
    · exact Or.inr h
    · obtain ⟨b, hb, hmem⟩ := List.mem_flatMap.mp h
      rcases List.mem_cons.mp hmem with h | h
      · exact Or.inl (by rw [h]; exact hb)
      · exact Or.inr h
  · exact mem_replaceAllGo old new s.length s a h

theorem mem_replaceLine (line : List Char) (a : Char) (h : a ∈ replaceLine line) :
    a ∈ line ∨ a ∈ "pass".toList := by
  unfold replaceLine at h
  split_ifs at h with h1 h2 h3 h4 h5
  all_goals first
    | exact (mem_regexSubPrintGo _ _ _ a h).imp_left id
    | exact mem_replaceAll _ _ _ a h
    | exact Or.inl h

theorem no_nl_replaceLine (line : List Char) (h : ('\n' : Char) ∉ line) :
    ('\n' : Char) ∉ replaceLine line := by
  intro hm
  rcases mem_replaceLine line '\n' hm with hh | hh
  · exact h hh
  · simp at hh

theorem mem_splitLines_no_nl : ∀ (s l : List Char),
    l ∈ splitLinesChar s → ('\n' : Char) ∉ l := by
  intro s
  induction s with
  | nil =>
      intro l h
      simp [splitLinesChar] at h
      rw [h]
      simp
  | cons c t ih =>
      intro l h
      simp only [splitLinesChar] at h
      split at h
      · rename_i heq
        exact absurd heq (splitLinesChar_ne_nil t)
      · rename_i h0 r heq
        split_ifs at h with hc
        · rcases List.mem_cons.mp h with h | h
          · rw [h]; simp
          · exact ih l (by rw [heq]; exact h)
        · rcases List.mem_cons.mp h with h | h
          · rw [h]
            intro hm
            rcases List.mem_cons.mp hm with hm | hm
            · exact hc hm.symm
            · exact ih h0 (by rw [heq]; exact List.mem_cons_self ..) hm
          · exact ih l (by rw [heq]; exact List.mem_cons_of_mem _ h)

theorem foldl_commonPrefix_mem_nil :
    ∀ (t : List (List Char)) (acc : List Char), [] ∈ t →
      List.foldl commonPrefix acc t = [] := by
  intro t
  induction t with
  | nil => intro acc h; simp at h
  | cons x t2 ih =>
      intro acc h
      rw [List.foldl_cons]
      rcases List.mem_cons.mp h with he | he
      · rw [← he]
        rw [show commonPrefix acc [] = [] from by cases acc <;> rfl]
        exact foldl_commonPrefix_nil t2
      · exact ih _ he

theorem dedent_map_nil_margin (ls : List (List Char)) :
    ls.map (fun l => if ([] : List Char).isPrefixOf l
      then l.drop ([] : List Char).length else l) = ls := by
  have hcong : ∀ l ∈ ls, (if ([] : List Char).isPrefixOf l
      then l.drop ([] : List Char).length else l) = l := by
    intro l _
    rw [if_pos (nil_isPrefixOf_true l)]
    rfl
  rw [List.map_congr_left hcong]
  exact List.map_id' ls

theorem containsSub_dedent_template (tail : List (List Char))
    (htail : ∀ l ∈ tail, ('\n' : Char) ∉ l) :
    containsSub importHeader
      (dedent (joinLines ([] :: importHeader :: [] :: tail))) = true := by
  have hall : ∀ l ∈ ([] :: importHeader :: [] :: tail), ('\n' : Char) ∉ l := by
    intro l hl
    rcases List.mem_cons.mp hl with he | hl
    · rw [he]; simp
    · rcases List.mem_cons.mp hl with he | hl
      · rw [he]; decide
      · rcases List.mem_cons.mp hl with he | hl
        · rw [he]; simp
        · exact htail l hl
  have hsplit2 : splitLinesChar (joinLines ([] :: importHeader :: [] :: tail)) =
      [] :: importHeader :: [] :: tail :=
    split_joinLines _ (by simp) hall
  have hls : List.map emptyWsOnly ([] :: importHeader :: [] :: tail) =
      [] :: importHeader :: [] :: List.map emptyWsOnly tail := by
    rw [List.map_cons, List.map_cons, List.map_cons]
    rw [show emptyWsOnly ([] : List Char) = [] from rfl]
    rw [show emptyWsOnly importHeader = importHeader from by decide]
  simp only [dedent]
  rw [hsplit2]
  rw [hls]
  have hnone : (fun (l : List Char) =>
      if l.any (fun c => !isIndentChar c) = true
      then some (l.takeWhile isIndentChar) else none) ([] : List Char) = none := rfl
  have hsome : (fun (l : List Char) =>
      if l.any (fun c => !isIndentChar c) = true
      then some (l.takeWhile isIndentChar) else none) importHeader = some [] := by
    decide
  have hfm : List.filterMap (fun (l : List Char) =>
        if l.any (fun c => !isIndentChar c) = true
        then some (l.takeWhile isIndentChar) else none)
      (([] : List Char) :: importHeader :: [] :: tail.map emptyWsOnly) =
      [] :: List.filterMap (fun (l : List Char) =>
        if l.any (fun c => !isIndentChar c) = true
        then some (l.takeWhile isIndentChar) else none) (tail.map emptyWsOnly) := by
    rw [@List.filterMap_cons_none (List Char) (List Char) _ ([] : List Char) _ hnone]
    rw [@List.filterMap_cons_some (List Char) (List Char) _ importHeader _ _ hsome]
    rw [@List.filterMap_cons_none (List Char) (List Char) _ ([] : List Char) _ hnone]
  rw [hfm]
  rw [show (match ([] : List Char) ::
      (tail.map emptyWsOnly).filterMap (fun l =>
        if l.any (fun c => !isIndentChar c) = true
        then some (l.takeWhile isIndentChar) else none) with
    | [] => ([] : List Char)
    | h :: t => t.foldl commonPrefix h) =
      ((tail.map emptyWsOnly).filterMap (fun l =>
        if l.any (fun c => !isIndentChar c) = true
        then some (l.takeWhile isIndentChar) else none)).foldl commonPrefix []
    from rfl]
  rw [foldl_commonPrefix_nil]
  rw [dedent_map_nil_margin]
  exact (containsSub_infix_iff _ _).mpr
    (joinLines_infix_of_mem _ _ (List.mem_cons_of_mem _ (List.mem_cons_self ..)))

/-! ### The print guard on a full single-line print call

A line that is exactly `print(` ++ a ++ `)`, with one of the guarded
keywords occurring in `a`, is rewritten to `pass` by the loop body of
`replace_print_with_pass`: every clause whose keyword occurs on the line
produces a regex match covering the whole line (the match starts at the
leftmost `print(`, which is position 0, and greedily extends to the last
closing parenthesis, which is the end of the line), and the last
applicable clause therefore writes `pass`. -/

theorem contains_char_eq_false (c : Char) :
    ∀ l : List Char, c ∉ l → l.contains c = false := by
  intro l
  induction l with
  | nil => intro _; rfl
  | cons x t ih =>
      intro h
      have h1 : c ∉ t := fun hm => h (List.mem_cons_of_mem x hm)
      have h2 : x ≠ c := fun he => h (he ▸ List.mem_cons_self x t)
      simp [List.contains_cons, ih h1, h2]
      exact ⟨fun he => h2 he.symm, h1⟩

theorem getD_last_append (u : List Char) (c x : Char) :
    (u ++ [c]).getD u.length x = c := by
  induction u with
  | nil => rfl
  | cons y t ih =>
      simp only [List.cons_append, List.length_cons, List.getD_cons_succ]
      exact ih

theorem prefix_append_cons_split (kw u v : List Char) (c : Char) (hc : c ∉ kw)
    (h : kw <+: u ++ c :: v) : kw <+: u := by
  have he : kw = (u ++ c :: v).take kw.length := List.prefix_iff_eq_take.mp h
  by_cases hlen : kw.length ≤ u.length
  · rw [List.take_append_eq_append_take] at he
    rw [show kw.length - u.length = 0 from by omega] at he
    rw [List.take_zero, List.append_nil] at he
    rw [he]
    exact List.take_prefix _ _
  · exfalso
    apply hc
    have hmem : c ∈ (u ++ c :: v).take kw.length := by
      rw [List.take_append_eq_append_take]
      rw [List.take_of_length_le (by omega)]
      rw [show kw.length - u.length = (kw.length - u.length - 1) + 1 from by omega]
      rw [List.take_succ_cons]
      exact List.mem_append.mpr (Or.inr (List.mem_cons_self _ _))
    rw [← he] at hmem
    exact hmem

theorem infix_append_cons_split (kw : List Char) (c : Char) (hc : c ∉ kw) :
    ∀ u v : List Char, kw <:+: u ++ c :: v → kw <:+: u ∨ kw <:+: v := by
  intro u
  induction u with
  | nil =>
      intro v h
      rw [List.nil_append] at h
      rcases List.infix_cons_iff.mp h with hp | hi
      · cases kw with
        | nil => exact Or.inr List.nil_infix
        | cons k kt =>
            obtain ⟨hk, -⟩ := List.cons_prefix_cons.mp hp
            exact absurd (show c ∈ k :: kt from by
              rw [hk]; exact List.mem_cons_self c kt) hc
      · exact Or.inr hi
  | cons x u2 ih =>
      intro v h
      rw [List.cons_append] at h
      rcases List.infix_cons_iff.mp h with hp | hi
      · left
        cases kw with
        | nil => exact List.nil_infix
        | cons k kt =>
            obtain ⟨hk, hpre⟩ := List.cons_prefix_cons.mp hp
            have hkt : kt <+: u2 :=
              prefix_append_cons_split kt u2 v c
                (fun hm => hc (List.mem_cons_of_mem _ hm)) hpre
            exact (List.cons_prefix_cons.mpr ⟨hk, hkt⟩).isInfix
      · rcases ih v hi with h1 | h2
        · exact Or.inl (h1.trans (List.suffix_cons x u2).isInfix)
        · exact Or.inr h2

theorem infix_print_line_iff (kw a : List Char) (hne : kw ≠ [])
    (hpr : ¬ kw <:+: "print".toList) (hp1 : '(' ∉ kw) (hp2 : ')' ∉ kw) :
    kw <:+: printPat ++ a ++ [')'] ↔ kw <:+: a := by
  constructor
  · intro h
    rcases infix_append_cons_split kw ')' hp2 (printPat ++ a) [] h with h1 | h2
    · have h1' : kw <:+: "print".toList ++ '(' :: a := by
        rw [show ("print".toList ++ '(' :: a : List Char) = printPat ++ a from rfl]
        exact h1
      rcases infix_append_cons_split kw '(' hp1 "print".toList a h1' with h3 | h4
      · exact absurd h3 hpr
      · exact h4
    · rw [List.infix_nil] at h2
      exact absurd h2 hne
  · intro h
    exact h.trans ⟨printPat, [')'], rfl⟩

theorem length_print_line (a : List Char) :
    (printPat ++ a ++ [')']).length = a.length + 7 := by
  rw [List.length_append, List.length_append]
  rw [show printPat.length = 6 from rfl]
  rw [show ([')'] : List Char).length = 1 from rfl]
  omega

theorem validR_full_line (kw a : List Char) (hnl : ('\n' : Char) ∉ a)
    (hkw : kw <:+: a) :
    validR kw (printPat ++ a ++ [')']) 0 (a.length + 6) = true := by
  obtain ⟨s, t, hst⟩ := hkw
  have hlen : s.length + (kw.length + t.length) = a.length := by
    have hcl := congrArg List.length hst
    simpa [List.length_append] using hcl
  have hnomem : ('\n' : Char) ∉ printPat ++ a ++ [')'] := by
    intro hm
    rcases List.mem_append.mp hm with hm1 | hm2
    · rcases List.mem_append.mp hm1 with hma | hmb
      · exact absurd hma (by decide)
      · exact hnl hmb
    · exact absurd hm2 (by decide)
  unfold validR
  simp only [Bool.and_eq_true]
  refine ⟨⟨?_, ?_⟩, ?_⟩
  · refine decide_eq_true ?_
    have hl6 : (printPat ++ a).length = a.length + 6 := by
      rw [List.length_append]
      rw [show printPat.length = 6 from rfl]
      omega
    calc (printPat ++ a ++ [')']).getD (a.length + 6) ' '
        = (printPat ++ a ++ [')']).getD (printPat ++ a).length ' ' := by rw [hl6]
      _ = ')' := getD_last_append _ _ _
  · rw [List.drop_zero]
    rw [List.take_of_length_le (by have hh := length_print_line a; omega)]
    rw [contains_char_eq_false '\n' _ hnomem]
    rfl
  · rw [List.any_eq_true]
    refine ⟨s.length + 6, List.mem_range.mpr (by omega), ?_⟩
    simp only [Bool.and_eq_true]
    refine ⟨⟨?_, ?_⟩, ?_⟩
    · exact decide_eq_true (by omega)
    · have hdrop : (printPat ++ a ++ [')']).drop (s.length + 6) =
          kw ++ (t ++ [')']) := by
        have hre : printPat ++ a ++ [')'] =
            (printPat ++ s) ++ (kw ++ (t ++ [')'])) := by
          rw [← hst]
          simp [List.append_assoc]
        rw [hre]
        rw [show s.length + 6 = (printPat ++ s).length from by
          rw [List.length_append]
          rw [show printPat.length = 6 from rfl]
          omega]
        exact List.drop_left _ _
      rw [hdrop]
      exact List.isPrefixOf_iff_prefix.mpr (List.prefix_append kw _)
    · exact decide_eq_true (by omega)

theorem canMatchAt_full_line (kw a : List Char) (hnl : ('\n' : Char) ∉ a)
    (hkw : kw <:+: a) :
    canMatchAt kw (printPat ++ a ++ [')']) 0 = true := by
  unfold canMatchAt
  simp only [Bool.and_eq_true]
  refine ⟨?_, ?_⟩
  · rw [List.drop_zero]
    refine List.isPrefixOf_iff_prefix.mpr ?_
    rw [List.append_assoc]
    exact List.prefix_append printPat _
  · rw [List.any_eq_true]
    exact ⟨a.length + 6,
      List.mem_range.mpr (by have hh := length_print_line a; omega),
      validR_full_line kw a hnl hkw⟩

theorem findP_full_line (kw a : List Char) (hnl : ('\n' : Char) ∉ a)
    (hkw : kw <:+: a) :
    findP kw (printPat ++ a ++ [')']) = some 0 := by
  unfold findP
  rw [show (printPat ++ a ++ [')']).length = (a.length + 6) + 1 from by
    rw [length_print_line]]
  rw [List.range_succ_eq_map]
  exact List.find?_cons_of_pos _ (canMatchAt_full_line kw a hnl hkw)

theorem findR_full_line (kw a : List Char) (hnl : ('\n' : Char) ∉ a)
    (hkw : kw <:+: a) :
    findR kw (printPat ++ a ++ [')']) 0 = a.length + 6 := by
  unfold findR
  rw [show (printPat ++ a ++ [')']).length = (a.length + 6) + 1 from by
    rw [length_print_line]]
  rw [List.range_succ]
  rw [List.foldl_append]
  rw [List.foldl_cons, List.foldl_nil]
  rw [validR_full_line kw a hnl hkw]
  simp

theorem regexSubPrintGo_nil_input (kw : List Char) :
    ∀ f, regexSubPrintGo kw f [] = [] := by
  intro f
  cases f with
  | zero => rfl
  | succ g => rfl

theorem regexSubPrint_full_line (kw a : List Char) (hnl : ('\n' : Char) ∉ a)
    (hkw : kw <:+: a) :
    regexSubPrint kw (printPat ++ a ++ [')']) = "pass".toList := by
  unfold regexSubPrint
  rw [show (printPat ++ a ++ [')']).length = (a.length + 6) + 1 from by
    rw [length_print_line]]
  simp only [regexSubPrintGo, findP_full_line kw a hnl hkw,
    findR_full_line kw a hnl hkw]
  rw [List.take_zero]
  rw [show (printPat ++ a ++ [')']).drop (a.length + 6 + 1) = [] from
    List.drop_eq_nil_of_le (by have hh := length_print_line a; omega)]
  simp [regexSubPrintGo_nil_input, show findP kw ([] : List Char) = none from rfl]

theorem replaceLine_print_guard (a : List Char) (hnl : ('\n' : Char) ∉ a)
    (hcase : "legal_doc_list".toList <:+: a ∨ "案件列表".toList <:+: a ∨
      "legal_docs".toList <:+: a ∨
      ("列表".toList <:+: a ∧ ¬ "公司".toList <:+: a)) :
    replaceLine (printPat ++ a ++ [')']) = "pass".toList := by
  have hprint : containsSub "print".toList (printPat ++ a ++ [')']) = true :=
    (containsSub_infix_iff _ _).mpr ⟨[], '(' :: (a ++ [')']), rfl⟩
  have hiff : ∀ kw : List Char, kw ≠ [] → ¬ kw <:+: "print".toList →
      '(' ∉ kw → ')' ∉ kw →
      (containsSub kw (printPat ++ a ++ [')']) = true ↔ kw <:+: a) := by
    intro kw h1 h2 h3 h4
    rw [containsSub_infix_iff]
    exact infix_print_line_iff kw a h1 h2 h3 h4
  simp only [replaceLine]
  split_ifs with h5 h4 h3 h2 h1
  · simp only [Bool.and_eq_true, Bool.not_eq_true'] at h5
    exact regexSubPrint_full_line _ a hnl
      ((hiff _ (by decide) (by decide) (by decide) (by decide)).mp h5.1.2)
  · simp only [Bool.and_eq_true] at h4
    exact regexSubPrint_full_line _ a hnl
      ((hiff _ (by decide) (by decide) (by decide) (by decide)).mp h4.2)
  · simp only [Bool.and_eq_true] at h3
    exact regexSubPrint_full_line _ a hnl
      ((hiff _ (by decide) (by decide) (by decide) (by decide)).mp h3.2)
  · simp only [Bool.and_eq_true] at h2
    exact regexSubPrint_full_line _ a hnl
      ((hiff _ (by decide) (by decide) (by decide) (by decide)).mp h2.2)
  · exfalso
    rcases hcase with hA | hB | hC | ⟨hD, hE⟩
    · apply h2
      simp only [Bool.and_eq_true]
      exact ⟨hprint, (hiff _ (by decide) (by decide) (by decide) (by decide)).mpr hA⟩
    · apply h3
      simp only [Bool.and_eq_true]
      exact ⟨hprint, (hiff _ (by decide) (by decide) (by decide) (by decide)).mpr hB⟩
    · apply h4
      simp only [Bool.and_eq_true]
      exact ⟨hprint, (hiff _ (by decide) (by decide) (by decide) (by decide)).mpr hC⟩
    · apply h5
      have hK : containsSub "公司".toList (printPat ++ a ++ [')']) = false := by
        cases hKv : containsSub "公司".toList (printPat ++ a ++ [')']) with
        | false => rfl
        | true =>
            exact absurd
              ((hiff _ (by decide) (by decide) (by decide) (by decide)).mp hKv) hE
      simp only [Bool.and_eq_true, Bool.not_eq_true']
      exact ⟨⟨hprint,
        (hiff _ (by decide) (by decide) (by decide) (by decide)).mpr hD⟩, hK⟩
  · exfalso
    rcases hcase with hA | hB | hC | ⟨hD, hE⟩
    · apply h2
      simp only [Bool.and_eq_true]
      exact ⟨hprint, (hiff _ (by decide) (by decide) (by decide) (by decide)).mpr hA⟩
    · apply h3
      simp only [Bool.and_eq_true]
      exact ⟨hprint, (hiff _ (by decide) (by decide) (by decide) (by decide)).mpr hB⟩
    · apply h4
      simp only [Bool.and_eq_true]
      exact ⟨hprint, (hiff _ (by decide) (by decide) (by decide) (by decide)).mpr hC⟩
    · apply h5
      have hK : containsSub "公司".toList (printPat ++ a ++ [')']) = false := by
        cases hKv : containsSub "公司".toList (printPat ++ a ++ [')']) with
        | false => rfl
        | true =>
            exact absurd
              ((hiff _ (by decide) (by decide) (by decide) (by decide)).mp hKv) hE
      simp only [Bool.and_eq_true, Bool.not_eq_true']
      exact ⟨⟨hprint,
        (hiff _ (by decide) (by decide) (by decide) (by decide)).mpr hD⟩, hK⟩

/-- C10 (amended): whenever the stripped input does not already start with
    the line `from app.law.tools import *`, the code submitted to the
    sandbox contains that line — prepended via `CODE_TEMPLATE`, which
    begins with a blank line, so the submitted code does not literally
    begin with it; and the guard of `replace_print_with_pass` rewrites any
    line that is exactly a single-line `print(...)` call whose argument
    text mentions `legal_doc_list`, `案件列表`, `legal_docs`, or `列表`
    (the last only when the line does not also mention `公司`) to `pass`,
    as it does end to end for `print(legal_doc_list)`; print calls written
    with a space before the parenthesis, or split across lines, survive. -/
theorem run_code_import_and_print_guard :
    (∀ code : List Char, importHeader.isPrefixOf (pyStrip code) = false →
      containsSub importHeader (prepareCode code) = true) ∧
    (∀ a : List Char, ('\n' : Char) ∉ a →
      ("legal_doc_list".toList <:+: a ∨ "案件列表".toList <:+: a ∨
        "legal_docs".toList <:+: a ∨
        ("列表".toList <:+: a ∧ ¬ "公司".toList <:+: a)) →
      replaceLine (printPat ++ a ++ [')']) = "pass".toList) ∧
    prepareCode "print(legal_doc_list)".toList =
      "\nfrom app.law.tools import *\n\npass\n".toList := by
  refine ⟨?_, replaceLine_print_guard, by decide⟩
  intro code h
  have hbranch : prepareCode code =
      dedent (replacePrintWithPass (codeTemplate code)) := by
    simp only [prepareCode, h]
    rfl
  rw [hbranch]
  have hnl : ('\n' : Char) ∉ importHeader := by decide
  have hsplit : splitLinesChar (codeTemplate code) =
      [] :: importHeader :: [] :: splitLinesChar (code ++ ['\n']) := by
    unfold codeTemplate
    rw [split_cons_nl]
    rw [show importHeader ++ '\n' :: '\n' :: (code ++ ['\n']) = importHeader ++
      '\n' :: ('\n' :: (code ++ ['\n'])) from rfl]
    rw [split_append_nonl importHeader _ hnl]
    rw [split_cons_nl]
  unfold replacePrintWithPass
  rw [hsplit]
  rw [List.map_cons, List.map_cons, List.map_cons]
  rw [show replaceLine [] = [] from by decide]
  rw [show replaceLine importHeader = importHeader from by decide]
  refine containsSub_dedent_template _ ?_
  intro l hl
  obtain ⟨l0, hl0, hrep⟩ := List.mem_map.mp hl
  rw [← hrep]
  exact no_nl_replaceLine l0 (mem_splitLines_no_nl _ l0 hl0)

/-- Witness for the amended C10: a plain statement gets the template, and a
    whole-line print over `legal_doc_list` is rewritten to `pass`. -/
theorem run_code_import_and_print_guard_witness :
    containsSub importHeader (prepareCode "x = 1".toList) = true ∧
    replaceLine (printPat ++ "legal_doc_list".toList ++ [')']) =
      "pass".toList :=
  ⟨run_code_import_and_print_guard.1 "x = 1".toList (by decide),
   run_code_import_and_print_guard.2.1 "legal_doc_list".toList (by decide)
     (Or.inl List.infix_rfl)⟩

/-- Counterexample to C10 as stated: for the input
    `print (legal_doc_list)` the submitted code does not begin with
    the import line (the template starts with a blank line), and it still
    contains a print call over `legal_doc_list`, because the regex
    requires `print` to be immediately followed by `(`. -/
theorem print_call_survives :
    prepareCode "print (legal_doc_list)".toList =
      "\nfrom app.law.tools import *\n\nprint (legal_doc_list)\n".toList ∧
    List.isPrefixOf importHeader
      (prepareCode "print (legal_doc_list)".toList) = false ∧
    containsSub "print (legal_doc_list)".toList
      (prepareCode "print (legal_doc_list)".toList) = true := by
  refine ⟨by decide, by decide, by decide⟩

end QwenArticle
